import Mathlib

/-!
Shallow embedding of the walking-lanczos core (sparse quantum-state engine,
Heisenberg operator, truncation policies, power-iteration driver) for checking
the natural-language specification against the C++ source.

Conventions of the embedding:
* `double` / `std::complex<double>` are modelled by exact `ℝ` / `ℂ`
  (floating-point rounding is abstracted away);
* `std::size_t` is modelled by `ℕ` (the one place where wrap-around matters,
  the `SIZE_MAX` sentinel of the alias method, is modelled explicitly);
* hash maps (`ska::bytell_hash_map`) are modelled as association lists with
  the keys kept unique by the operations, exactly as the map interface
  (`find` / `insert` / `erase`) guarantees;
* the per-shard SPSC accumulation protocol delivers every `Builder` update to
  the shard owning its key, in FIFO order per shard; since an update touches
  only its own shard, the final table contents equal the sequential left fold
  of the update stream, which is how a build is modelled here;
* exceptions (`throw_with_trace`) are modelled with `Except String`.
-/

/-- The two values of a spin-1/2 site (`Spin::down = 0`, `Spin::up = 1`),
modelled as `Bool` with `up = true`. -/
abbrev Spin := Bool

/-- `SpinVector` (spin_chain.hpp): a sequence of at most 112 spins.  The
C++ class bit-packs the sequence big-endian into 14 payload bytes plus a
16-bit length; the embedding keeps the sequence itself and recomputes the
byte view where the code reads it (`data()[0]`, used for shard selection).
Padding bits beyond the length are zero, which `get` mirrors by returning
`false` out of range. -/
structure SpinVector where
  spins : List Spin
deriving DecidableEq

namespace SpinVector

/-- `SpinVector::size()`. -/
def size (σ : SpinVector) : ℕ := σ.spins.length

/-- `SpinVector::operator[]` (read): spin at index `i`.  Out-of-range reads
(a programming error guarded by `TCM_ASSERT` in the source) return the
zeroed padding. -/
def get (σ : SpinVector) (i : ℕ) : Spin := σ.spins.getD i false

/-- `SpinVector::flip(i)`: XOR the bit of spin `i` (bit `7 - i % 8` of byte
`i / 8` in the packed representation). -/
def flip (σ : SpinVector) (i : ℕ) : SpinVector :=
  ⟨σ.spins.set i (! σ.spins.getD i false)⟩

/-- `SpinVector::flipped({i, j, ...})`: copy of `σ` with the listed indices
flipped (applied in list order, as the range-for over the initializer list
does). -/
def flipped (σ : SpinVector) (is : List ℕ) : SpinVector :=
  is.foldl flip σ

/-- The first byte of the packed representation, `data()[0]`: spins
`0, …, 7` packed big-endian (spin `i` at bit `7 − i`), padding zero. -/
def byte0 (σ : SpinVector) : ℕ :=
  (List.range 8).foldl (fun acc i => acc + (if σ.get i then 2 ^ (7 - i) else 0)) 0

end SpinVector

/-- `__builtin_popcount`: number of set bits. -/
def popCount : ℕ → ℕ
  | 0 => 0
  | n + 1 => (n + 1) % 2 + popCount ((n + 1) / 2)
decreasing_by exact Nat.div_lt_self (Nat.succ_pos n) Nat.one_lt_two

/-- `spin_to_index` (quantum_state.hpp): the shard owning a key,
`data()[0] >> (8 - popcount(number_workers - 1))`.  (The source asserts that
`number_workers` is a nonzero power of two before computing this.)
`quantum_state.cpp` calls a one-argument variant; it is modelled as this
function applied to the state's shard count, which is the only reading
consistent with `find` and the `Builder`. -/
def spin_to_index (σ : SpinVector) (numberWorkers : ℕ) : ℕ :=
  σ.byte0 >>> (8 - popCount (numberWorkers - 1))

/-- One shard: the contents of one `ska::bytell_hash_map<SpinVector, ℂ>`. -/
abbrev Table := List (SpinVector × ℂ)

namespace Table

/-- `table.find(k)` of the hash map, as the looked-up amplitude. -/
def lookup (t : Table) (k : SpinVector) : Option ℂ :=
  match t with
  | [] => none
  | (k', a) :: rest => if k' = k then some a else lookup rest k

/-- `table.insert(x)` of the hash map: a no-op when the key is already
present (`std::unordered_map`-style insert), otherwise the entry is added.
The `bool` of the returned pair is true iff insertion took place. -/
def insertNew (t : Table) (x : SpinVector × ℂ) : Table × Bool :=
  if (lookup t x.1).isSome then (t, false) else (t ++ [x], true)

/-- `Updater::unsafe_process` (quantum_state.hpp): look the key up in the
owning shard; add the delta in place when present, insert otherwise. -/
def addTo (t : Table) (x : SpinVector × ℂ) : Table :=
  match t with
  | [] => [x]
  | (k, a) :: rest => if k = x.1 then (k, a + x.2) :: rest else (k, a) :: addTo rest x

/-- `table.erase(k)` of the hash map: drop the entry with key `k`. -/
def eraseKey (t : Table) (k : SpinVector) : Table :=
  match t with
  | [] => []
  | (k', a) :: rest => if k' = k then rest else (k', a) :: eraseKey rest k

end Table

/-- `QuantumState` (quantum_state.hpp): `N` shards (`_maps`), the soft cap
(`_soft_max_size`), the hard cap (`_hard_max_size`, used by the constructor
as the initial bucket count of each shard) and the truncation mode
(`_use_random_sampling`). -/
@[ext]
structure QuantumState where
  maps : List Table
  softMax : ℕ
  hardMax : ℕ
  useRandomSampling : Bool

namespace QuantumState

/-- The `QuantumState` constructor: throws `std::invalid_argument` when
`soft_max < 2`, otherwise creates `number_workers` empty shards (each with
`hard_max` initial buckets — a performance hint with no logical content). -/
def make (softMax hardMax numberWorkers : ℕ) (useRandomSampling : Bool) :
    Except String QuantumState :=
  if softMax < 2 then .error "`soft_max` must be at least 2."
  else .ok ⟨List.replicate numberWorkers [], softMax, hardMax, useRandomSampling⟩

/-- `QuantumState::clear`. -/
def clear (ψ : QuantumState) : QuantumState :=
  { ψ with maps := ψ.maps.map (fun _ => []) }

/-- `QuantumState::insert` (quantum_state.cpp): hash-map insert (no
overwrite, no merge) into the shard `spin_to_index(x.first)`. -/
def insert (ψ : QuantumState) (x : SpinVector × ℂ) : QuantumState :=
  let i := spin_to_index x.1 ψ.maps.length
  { ψ with maps := ψ.maps.set i ((Table.insertNew (ψ.maps.getD i []) x).1) }

/-- `QuantumState::find`: look the key up in its shard. -/
def find (ψ : QuantumState) (k : SpinVector) : Option ℂ :=
  Table.lookup (ψ.maps.getD (spin_to_index k ψ.maps.length) []) k

/-- Total number of entries, `Σ shard.size()` (the accumulation used by
`shrink` and `remove_least`). -/
def size (ψ : QuantumState) : ℕ :=
  (ψ.maps.map List.length).sum

/-- The entries streamed by `QuantumState::for_each`.  The source
round-robins over the per-shard hash-map iterators; entry order within a
shard is the (unspecified) hash-map iteration order, so the model uses the
shard-by-shard concatenation.  Every claim below depends only on the
per-entry processing, not on the interleaving. -/
def entries (ψ : QuantumState) : List (SpinVector × ℂ) :=
  ψ.maps.foldr (· ++ ·) []

/-- One `Builder` update delivered to its shard: `QuantumStateBuilder`
routes `(amplitude, key)` to the `Updater` owning `spin_to_index(key)`,
whose consumer runs `unsafe_process({key, amplitude})`. -/
def applyUpdate (ψ : QuantumState) (u : ℂ × SpinVector) : QuantumState :=
  let i := spin_to_index u.2 ψ.maps.length
  { ψ with maps := ψ.maps.set i (Table.addTo (ψ.maps.getD i []) (u.2, u.1)) }

/-- The net effect of a build: every update pushed between
`Builder.start()` and `Builder.stop()` is folded into the owning shard
(per-shard FIFO; shards are disjoint, so the sequential fold is the joint
outcome). -/
def build (ψ : QuantumState) (stream : List (ℂ × SpinVector)) : QuantumState :=
  stream.foldl applyUpdate ψ

/-- Total weight `Σ |amplitude|²`, accumulated per shard and then summed,
as `QuantumState::normalize` computes it (`std::norm` is `Complex.normSq`). -/
def normSum (ψ : QuantumState) : ℝ :=
  (ψ.maps.map (fun t => (t.map (fun x => Complex.normSq x.2)).sum)).sum

/-- `QuantumState::normalize` (quantum_state.cpp): multiply every amplitude
by `scale = 1 / √(Σ |amplitude|²)`. -/
noncomputable def normalize (ψ : QuantumState) : QuantumState :=
  let scale : ℝ := 1 / Real.sqrt ψ.normSum
  { ψ with maps := ψ.maps.map (fun t => t.map (fun x => (x.1, x.2 * (scale : ℂ)))) }

end QuantumState

/-- Comparison used by `QuantumState::remove_least` when partially sorting
the gathered `(key, |amplitude|²)` pairs: ascending weight. -/
def weightLE (x y : SpinVector × ℝ) : Prop := x.2 ≤ y.2

noncomputable instance : DecidableRel weightLE :=
  fun x y => Real.decidableLE x.2 y.2

instance : IsTotal (SpinVector × ℝ) weightLE :=
  ⟨fun a b => le_total a.2 b.2⟩

instance : IsTrans (SpinVector × ℝ) weightLE :=
  ⟨fun _ _ _ h h' => le_trans h h'⟩

namespace QuantumState

/-- `QuantumState::remove_least(count)` (quantum_state.cpp): gather
`(key, std::norm(amplitude))` for every entry of every shard, sort the
`count` smallest to the front (`std::partial_sort`; the model sorts the
whole buffer, which yields the same prefix up to ties), and erase each of
the first `count` keys from the shard `spin_to_index(key)` that owns it. -/
noncomputable def remove_least (ψ : QuantumState) (count : ℕ) : QuantumState :=
  let items : List (SpinVector × ℝ) :=
    (ψ.maps.map (fun t => t.map (fun x => (x.1, Complex.normSq x.2)))).foldr (· ++ ·) []
  let sorted := items.insertionSort weightLE
  { ψ with
    maps := (sorted.take count).foldl
      (fun ms v => ms.set (spin_to_index v.1 ms.length)
        (Table.eraseKey (ms.getD (spin_to_index v.1 ms.length) []) v.1)) ψ.maps }

end QuantumState

/-- `std::numeric_limits<std::size_t>::max()`, the alias sentinel written by
`WeightedDistribution::init` (64-bit target). -/
def sizeTSentinel : ℕ := 2 ^ 64 - 1

/-- `WeightedDistribution` (random_sample.hpp): Walker alias tables.  The
two `std::vector`s of length `n` are modelled as total functions that are
zero off-range; both start zero-initialised, exactly like
`std::vector<double> prob(n)` / `std::vector<std::size_t> alias(n)`.
(The field name keeps the source's spelling `_probabily`.) -/
structure WeightedDistribution where
  probabily : ℕ → ℝ
  aliasT : ℕ → ℕ

/-- The pairing loop of `WeightedDistribution::init` (random_sample.cpp,
lines 85–103): while both partitions are non-empty take the front small
`low` and front large `high`; set `prob[low] = w[low]`, `alias[low] = high`,
`w[high] = w[low] + w[high] − 1`; if `w[high] < 1` the slot of `low` is
overwritten with `high` (so `high` heads the small partition) and the large
iterator advances, otherwise the small iterator advances.  Returns the
tables plus the unconsumed remainders of the two partitions. -/
noncomputable def aliasLoop :
    List ℕ → List ℕ → (ℕ → ℝ) → (ℕ → ℝ) → (ℕ → ℕ) →
      (ℕ → ℝ) × (ℕ → ℕ) × List ℕ × List ℕ
  | [], large, _, prob, aliasT => (prob, aliasT, [], large)
  | low :: smallRest, [], _, prob, aliasT => (prob, aliasT, low :: smallRest, [])
  | low :: smallRest, high :: largeRest, w, prob, aliasT =>
      let prob' := Function.update prob low (w low)
      let aliasT' := Function.update aliasT low high
      let w' := Function.update w high ((w low + w high) - 1)
      if w' high < 1 then aliasLoop (high :: smallRest) largeRest w' prob' aliasT'
      else aliasLoop smallRest (high :: largeRest) w' prob' aliasT'
termination_by small large _ _ _ => small.length + large.length
decreasing_by
  all_goals simp [List.length_cons]

/-- `WeightedDistribution::init` (random_sample.cpp): normalise the weights
to mean 1 (`normalise_weights`, which throws when the sum is zero),
partition the indices `0, …, n−1` into small (`w < 1`) and large
(`w ≥ 1`), run the pairing loop, and give every leftover index
`prob = 1`, `alias = SIZE_MAX`.  (The `_alias` member is named `aliasT` here because `alias` is reserved in Lean.) -/
noncomputable def WeightedDistribution.init (weights : List ℝ) :
    Except String WeightedDistribution :=
  if weights.sum = 0 then
    .error "Failed to normalise: all weights are zero."
  else
    let n := weights.length
    let w : ℕ → ℝ := fun i => weights.getD i 0 * (n / weights.sum)
    let parts := (List.range n).partition (fun i => w i < 1)
    let result := aliasLoop parts.1 parts.2 w (fun _ => 0) (fun _ => 0)
    let leftovers := result.2.2.2 ++ result.2.2.1
    .ok ⟨leftovers.foldl (fun p i => Function.update p i 1) result.1,
         leftovers.foldl (fun a i => Function.update a i sizeTSentinel) result.2.1⟩

/-- `WeightedDistribution::operator()` (random_sample.hpp): given the two
uniform draws — `index` from `{0, …, n−1}` and `choice` from `[0, 1)` —
return `index` when `choice < prob[index]`, else `alias[index]`. -/
noncomputable def WeightedDistribution.sample (d : WeightedDistribution)
    (index : ℕ) (choice : ℝ) : ℕ :=
  if choice < d.probabily index then index else d.aliasT index

namespace QuantumState

/-- `QuantumState::random_resample(count, gen)` (quantum_state.cpp): gather
all entries and their weights `std::norm(amplitude)`, clear every shard,
build the alias sampler (which throws when all weights are zero), then
`count` times draw an entry and `insert` it (hash-map insert: a duplicate
key is dropped).  The generator is modelled as the stream `draws` of the
`(index, choice)` pairs consumed by successive calls to the sampler. -/
noncomputable def random_resample (ψ : QuantumState) (count : ℕ)
    (draws : ℕ → ℕ × ℝ) : Except String QuantumState :=
  let items := ψ.entries
  let weights := items.map (fun x => Complex.normSq x.2)
  match WeightedDistribution.init weights with
  | .error e => .error e
  | .ok dist =>
      .ok ((List.range count).foldl
        (fun acc i =>
          let idx := dist.sample (draws i).1 (draws i).2
          acc.insert (items.getD idx (⟨[]⟩, 0))) ψ.clear)

/-- `QuantumState::shrink` (quantum_state.cpp): stochastic mode resamples
`soft_max` entries from the global generator; deterministic mode removes
`size − soft_max` entries when the total size exceeds the soft cap. -/
noncomputable def shrink (ψ : QuantumState) (draws : ℕ → ℕ × ℝ) :
    Except String QuantumState :=
  if ψ.useRandomSampling then ψ.random_resample ψ.softMax draws
  else .ok (if ψ.size > ψ.softMax then ψ.remove_least (ψ.size - ψ.softMax) else ψ)

end QuantumState

/-- `Hamiltonian` (hamiltonian.hpp): a first-class operator applied to one
basis configuration with an incoming coefficient, pushing its contributions
into a `Builder`.  The pushes are modelled as the emitted update list, in
push order. -/
abbrev Hamiltonian := SpinVector → ℂ → List (ℂ × SpinVector)

/-- The term list `Heisenberg::_specs`: pairs `(coupling, edges)`. -/
abbrev HeisenbergSpecs := List (ℂ × List (ℕ × ℕ))

/-- The body of `Heisenberg::operator()`'s inner loop (hamiltonian.cpp):
compute `aligned = (spin[i] == spin[j])` and `sign = -1 + 2 * aligned`
(cast to `double`), push `(sign * coeff * coupling, spin)` into the
builder, and when the spins are not aligned also push
`(2.0 * coeff * coupling, spin.flipped({i, j}))`.  The accumulator is the
stream of pushes made so far. -/
def heisenbergEdgeStep (coupling : ℂ) (spin : SpinVector) (coeff : ℂ)
    (acc2 : List (ℂ × SpinVector)) (e : ℕ × ℕ) : List (ℂ × SpinVector) :=
  let aligned := spin.get e.1 = spin.get e.2
  let sign : ℝ := -1 + 2 * (if aligned then 1 else 0)
  let acc3 := acc2 ++ [((sign : ℂ) * coeff * coupling, spin)]
  if aligned then acc3
  else acc3 ++ [(2 * coeff * coupling, spin.flipped [e.1, e.2])]

/-- `Heisenberg::operator()` (hamiltonian.cpp): the two nested range-for
loops over `_specs` and each term's edge list, each edge running
`heisenbergEdgeStep`. -/
def heisenberg (specs : HeisenbergSpecs) (spin : SpinVector) (coeff : ℂ) :
    List (ℂ × SpinVector) :=
  specs.foldl
    (fun acc spec => spec.2.foldl (heisenbergEdgeStep spec.1 spin coeff) acc)
    []

/-- The per-edge emission exactly as §4.2 of the specification words it:
`sign = 2·aligned − 1`; emit `(sign · c · J, σ)`; if not aligned, also emit
`(2 · c · J, σ` with bits `i` and `j` flipped`)`.  Kept separate from the
source-derived `heisenberg` so the two can be compared. -/
def heisenbergEdgeSpec (J : ℂ) (σ : SpinVector) (c : ℂ) (e : ℕ × ℕ) :
    List (ℂ × SpinVector) :=
  let aligned := σ.get e.1 = σ.get e.2
  (((2 * (if aligned then (1 : ℝ) else 0) - 1 : ℝ) : ℂ) * c * J, σ) ::
    (if aligned then [] else [(2 * c * J, σ.flipped [e.1, e.2])])

/-- `trotter_step` (diffusion.cpp): construct `h_psi` with ψ's parameters
(`soft_max`, the bucket-count estimate standing in for `hard_max`, the same
`number_workers` and sampling flag; the constructor throws when
`soft_max < 2`), then stream every entry `(spin, coeff)` of ψ through the
builder: `hamiltonian(spin, -coeff, builder)` followed by
`builder += {coeff * lambda, spin}`. -/
def trotterStep (lambda : ℂ) (hamiltonian : Hamiltonian) (ψ : QuantumState) :
    Except String QuantumState :=
  (QuantumState.make ψ.softMax ψ.hardMax ψ.maps.length ψ.useRandomSampling).map
    (fun hPsi =>
      ψ.entries.foldl
        (fun acc x =>
          (acc.build (hamiltonian x.1 (-x.2))).applyUpdate (x.2 * lambda, x.1))
        hPsi)

/-- One iteration of `diffusion_loop`'s body (diffusion.cpp):
`state = trotter_step(lambda, hamiltonian, state); state.shrink();
state.normalize();`.  `g` is the stream of generator draws available to
this iteration's `shrink`. -/
noncomputable def oneStep (lambda : ℂ) (hamiltonian : Hamiltonian)
    (g : ℕ → ℕ × ℝ) (ψ : QuantumState) : Except String QuantumState :=
  (trotterStep lambda hamiltonian ψ).bind
    (fun s => (s.shrink g).bind (fun s' => .ok s'.normalize))

/-- The `for (i = 1; i < iterations; ++i)` loop of `diffusion_loop`.
`gens k` is the draw stream the global generator supplies to iteration
`k`. -/
noncomputable def diffusionForLoop (lambda : ℂ) (hamiltonian : Hamiltonian)
    (gens : ℕ → ℕ → ℕ × ℝ) (i iterations : ℕ) (s : QuantumState) :
    Except String QuantumState :=
  if i < iterations then
    (oneStep lambda hamiltonian (gens i) s).bind
      (diffusionForLoop lambda hamiltonian gens (i + 1) iterations)
  else .ok s
termination_by iterations - i
decreasing_by omega

/-- `diffusion_loop` (diffusion.cpp): reject `iterations = 0`, run one
iteration on ψ, then the loop for `i ∈ [1, iterations)`.  (The status
updates printed to the terminal carry no state and are not modelled.) -/
noncomputable def diffusionLoop (lambda : ℂ) (hamiltonian : Hamiltonian)
    (ψ : QuantumState) (iterations : ℕ) (gens : ℕ → ℕ → ℕ × ℝ) :
    Except String QuantumState :=
  if iterations = 0 then .error "Number of iterations must be positive!"
  else
    (oneStep lambda hamiltonian (gens 0) ψ).bind
      (diffusionForLoop lambda hamiltonian gens 1 iterations)

/-- The specification's reading of the outer loop: apply the one-iteration
body exactly `n` times, the `k`-th application drawing from `gens k`.
Kept separate from the source-derived `diffusionLoop` so the two can be
compared. -/
noncomputable def nStepsFrom (lambda : ℂ) (hamiltonian : Hamiltonian)
    (gens : ℕ → ℕ → ℕ × ℝ) : ℕ → ℕ → QuantumState → Except String QuantumState
  | _, 0, s => .ok s
  | i, n + 1, s =>
      (oneStep lambda hamiltonian (gens i) s).bind
        (nStepsFrom lambda hamiltonian gens (i + 1) n)

/-- `H|ψ〉` as `energy` (hamiltonian.cpp) builds it: a temporary state with
ψ's parameters, filled by streaming every entry `(spin, coeff)` of ψ
through the Hamiltonian (no `lambda` term). -/
def hamiltonianApplied (hamiltonian : Hamiltonian) (ψ : QuantumState) :
    Except String QuantumState :=
  (QuantumState.make ψ.softMax ψ.hardMax ψ.maps.length ψ.useRandomSampling).map
    (fun hPsi => ψ.entries.foldl (fun acc x => acc.build (hamiltonian x.1 x.2)) hPsi)

/-- `energy` (hamiltonian.cpp): `Σ conj(coeff) * h_psi[spin]` over the
entries of ψ whose key is found in `h_psi = H|ψ〉`. -/
def energy (hamiltonian : Hamiltonian) (ψ : QuantumState) : Except String ℂ :=
  (hamiltonianApplied hamiltonian ψ).map
    (fun hPsi =>
      ψ.entries.foldl
        (fun acc x =>
          match hPsi.find x.1 with
          | some v => acc + (starRingEnd ℂ) x.2 * v
          | none => acc) 0)

/-- The power-of-two shape `TCM_ASSERT`ed by `spin_to_index` and the
`QuantumStateBuilder` constructor:
`number_workers > 0 && (number_workers & (number_workers - 1)) == 0`. -/
def workerCountAsserted (n : ℕ) : Prop := 0 < n ∧ n &&& (n - 1) = 0

instance (n : ℕ) : Decidable (workerCountAsserted n) := by
  unfold workerCountAsserted; infer_instance

/-- `main` (main.cpp, line 181): the state the entry point constructs —
soft cap from `--max`, hard cap from `--hard-max` defaulting to
`2 * soft_max`, exactly **one** worker, sampling mode from `--random`. -/
def mainInitialState (softMax : ℕ) (hardMax : Option ℕ) (useRandom : Bool) :
    Except String QuantumState :=
  QuantumState.make softMax (hardMax.getD (2 * softMax)) 1 useRandom

/-- `QuantumStateBuilder`'s updater list: one `Updater` per shard of the
target state, each owning (a pointer to) its table; its length is the
number of consumer threads a build spawns. -/
def builderUpdaters (ψ : QuantumState) : List Table := ψ.maps

/-- Shard-residence invariant for a shard array: every entry stored in
shard `i` has `spin_to_index key N = i`. -/
def MapsSharded (m : List Table) : Prop :=
  ∀ i, i < m.length → ∀ x ∈ m.getD i [], spin_to_index x.1 m.length = i

/-- Shard-residence invariant of a sharded state (§8 of the
specification). -/
def QuantumState.Sharded (ψ : QuantumState) : Prop := MapsSharded ψ.maps

/-- Per-shard key uniqueness, the hash-map representation invariant. -/
def QuantumState.KeysUnique (ψ : QuantumState) : Prop :=
  ∀ t ∈ ψ.maps, (t.map Prod.fst).Nodup

/-! ## Shared lemmas -/

/-- Folding `acc ++ g e` over a list appends the concatenated images. -/
theorem foldl_append_flatten {α β : Type} (g : α → List β) :
    ∀ (l : List α) (acc : List β),
      l.foldl (fun acc2 e => acc2 ++ g e) acc = acc ++ (l.map g).flatten
  | [], acc => by simp
  | a :: l, acc => by
      simp [List.foldl_cons, foldl_append_flatten g l (acc ++ g a), List.append_assoc]

theorem Table.length_le_addTo (t : Table) (x : SpinVector × ℂ) :
    t.length ≤ (Table.addTo t x).length := by
  induction t with
  | nil => simp [Table.addTo]
  | cons y rest ih =>
      obtain ⟨k, a⟩ := y
      by_cases h : k = x.1 <;> simp [Table.addTo, h] <;> omega

theorem QuantumState.maps_length_applyUpdate (ψ : QuantumState) (u : ℂ × SpinVector) :
    (ψ.applyUpdate u).maps.length = ψ.maps.length := by
  simp [QuantumState.applyUpdate]

theorem QuantumState.maps_length_build (stream : List (ℂ × SpinVector)) :
    ∀ ψ : QuantumState, (ψ.build stream).maps.length = ψ.maps.length := by
  induction stream with
  | nil => intro ψ; rfl
  | cons u rest ih =>
      intro ψ
      have h1 := QuantumState.maps_length_applyUpdate ψ u
      simpa [QuantumState.build, List.foldl_cons, ih (ψ.applyUpdate u)] using ih (ψ.applyUpdate u) ▸ h1

theorem QuantumState.build_hardMax (stream : List (ℂ × SpinVector)) :
    ∀ (ψ : QuantumState) (h' : ℕ),
      ({ψ with hardMax := h'} : QuantumState).build stream
        = {ψ.build stream with hardMax := h'} := by
  induction stream with
  | nil => intro ψ h'; rfl
  | cons u rest ih =>
      intro ψ h'
      have step : ({ψ with hardMax := h'} : QuantumState).applyUpdate u
          = {ψ.applyUpdate u with hardMax := h'} := rfl
      simp [QuantumState.build, List.foldl_cons, step]
      exact ih (ψ.applyUpdate u) h'

theorem QuantumState.shard_le_applyUpdate (ψ : QuantumState) (u : ℂ × SpinVector) (j : ℕ) :
    (ψ.maps.getD j []).length ≤ ((ψ.applyUpdate u).maps.getD j []).length := by
  unfold QuantumState.applyUpdate
  set i := spin_to_index u.2 ψ.maps.length with hi
  by_cases h : i = j
  · subst h
    by_cases hlt : i < ψ.maps.length
    · simp [List.getD_eq_getElem?_getD, List.getElem?_set_self, hlt,
        List.getElem?_eq_getElem]
      exact Table.length_le_addTo _ _
    · have hset : ψ.maps.set i (Table.addTo (ψ.maps.getD i []) (u.2, u.1)) = ψ.maps :=
        List.set_eq_of_length_le (by omega)
      rw [List.getD_eq_getElem?_getD] at hset
      simp [List.getD_eq_getElem?_getD, hset]
  · simp [List.getD_eq_getElem?_getD, List.getElem?_set_ne h]

theorem QuantumState.shard_le_build (stream : List (ℂ × SpinVector)) :
    ∀ (ψ : QuantumState) (j : ℕ),
      (ψ.maps.getD j []).length ≤ ((ψ.build stream).maps.getD j []).length := by
  induction stream with
  | nil => intro ψ j; exact le_refl _
  | cons u rest ih =>
      intro ψ j
      calc (ψ.maps.getD j []).length
          ≤ ((ψ.applyUpdate u).maps.getD j []).length := QuantumState.shard_le_applyUpdate ψ u j
        _ ≤ (((ψ.applyUpdate u).build rest).maps.getD j []).length := ih (ψ.applyUpdate u) j

theorem popCount_zero : popCount 0 = 0 := by
  rw [popCount]

theorem popCount_succ (n : ℕ) :
    popCount (n + 1) = (n + 1) % 2 + popCount ((n + 1) / 2) := by
  rw [popCount]

theorem SpinVector.byte0_lt (σ : SpinVector) : σ.byte0 < 256 := by
  unfold SpinVector.byte0
  simp [List.range_succ]
  split_ifs <;> norm_num

/-- With a single shard every key routes to shard 0: the shift is by
`8 − popcount(0) = 8` bits and `data()[0] < 256`. -/
theorem spin_to_index_one (σ : SpinVector) : spin_to_index σ 1 = 0 := by
  unfold spin_to_index
  rw [show (1 : ℕ) - 1 = 0 from rfl, popCount_zero]
  rw [Nat.shiftRight_eq_div_pow]
  exact Nat.div_eq_of_lt (by simpa using σ.byte0_lt)

/-- Pointwise shard growth plus equal shard counts bounds the total size. -/
theorem sum_length_le_of_pointwise :
    ∀ (m1 m2 : List Table), m1.length = m2.length →
      (∀ i, (m1.getD i []).length ≤ (m2.getD i []).length) →
      (m1.map List.length).sum ≤ (m2.map List.length).sum
  | [], [], _, _ => le_refl _
  | [], _ :: _, h, _ => by simp at h
  | _ :: _, [], h, _ => by simp at h
  | t1 :: m1, t2 :: m2, h, hp => by
      simp only [List.map_cons, List.sum_cons]
      have h0 := hp 0
      simp [List.getD] at h0
      have hrest := sum_length_le_of_pointwise m1 m2 (by simpa using h)
        (fun i => by simpa [List.getD] using hp (i + 1))
      omega

/-! ## C2 — Heisenberg operator emission -/

/-- One edge's pushes equal the specification's wording
(`sign = 2·aligned − 1`). -/
theorem heisenbergEdgeStep_eq (J : ℂ) (σ : SpinVector) (c : ℂ)
    (acc2 : List (ℂ × SpinVector)) (e : ℕ × ℕ) :
    heisenbergEdgeStep J σ c acc2 e = acc2 ++ heisenbergEdgeSpec J σ c e := by
  by_cases h : σ.get e.1 = σ.get e.2 <;>
    simp [heisenbergEdgeStep, heisenbergEdgeSpec, h] <;> norm_num

theorem heisenberg_inner_eq (J : ℂ) (σ : SpinVector) (c : ℂ) :
    ∀ (edges : List (ℕ × ℕ)) (acc : List (ℂ × SpinVector)),
      edges.foldl (heisenbergEdgeStep J σ c) acc
        = acc ++ (edges.map (heisenbergEdgeSpec J σ c)).flatten
  | [], acc => by simp
  | e :: edges, acc => by
      simp [List.foldl_cons, heisenbergEdgeStep_eq,
        heisenberg_inner_eq J σ c edges (acc ++ heisenbergEdgeSpec J σ c e),
        List.append_assoc]

theorem heisenberg_outer_eq (σ : SpinVector) (c : ℂ) :
    ∀ (specs : HeisenbergSpecs) (acc : List (ℂ × SpinVector)),
      specs.foldl (fun acc spec => spec.2.foldl (heisenbergEdgeStep spec.1 σ c) acc) acc
        = acc ++ (specs.map (fun sp => (sp.2.map (heisenbergEdgeSpec sp.1 σ c)).flatten)).flatten
  | [], acc => by simp
  | sp :: specs, acc => by
      simp [List.foldl_cons, heisenberg_inner_eq sp.1 σ c sp.2 acc,
        heisenberg_outer_eq σ c specs, List.append_assoc]

/-- C2: for every basis key σ, coefficient c and Heisenberg specification,
the operator emits, term by term and edge by edge, exactly the update
`(sign·c·J, σ)` with `sign = 2·aligned − 1` where
`aligned = (σ[i] == σ[j])`, plus — exactly when the two spins are not
aligned — the update `(2·c·J, σ with bits i and j flipped)`; nothing else
is emitted, and the emission is a pure function of `(specs, σ, c)` (no
state is retained between calls). -/
theorem C2_heisenberg_emits_spec (specs : HeisenbergSpecs) (σ : SpinVector) (c : ℂ) :
    heisenberg specs σ c =
      (specs.map (fun sp => (sp.2.map (heisenbergEdgeSpec sp.1 σ c)).flatten)).flatten := by
  unfold heisenberg
  simpa using heisenberg_outer_eq σ c specs []

/-! ## C8 — constructor validation -/

/-- C8 counterexample: a shard count that is **not** a power of two (3
fails the `TCM_ASSERT`ed shape) is accepted by the `QuantumState`
constructor without any error — refuting the claim that construction
raises a configuration error when `N` is not a power of two. -/
theorem C8_counterexample :
    QuantumState.make 10 20 3 false
        = .ok ⟨List.replicate 3 [], 10, 20, false⟩
      ∧ ¬ workerCountAsserted 3 := by
  exact ⟨rfl, by decide⟩

/-- C8 (amended): the `QuantumState` constructor raises a configuration
error exactly when the soft cap is < 2; the shard count is **not**
validated there (the power-of-two shape is only a debug assertion in
`spin_to_index` and the `QuantumStateBuilder` constructor).  On success
the parameters are stored as given and the state starts empty with
`number_workers` shards. -/
theorem C8_constructor_error_iff (s h w : ℕ) (r : Bool) :
    ((∃ e, QuantumState.make s h w r = .error e) ↔ s < 2)
    ∧ (∀ ψ, QuantumState.make s h w r = .ok ψ →
        ψ.maps.length = w ∧ ψ.softMax = s ∧ ψ.hardMax = h
          ∧ ψ.useRandomSampling = r ∧ ψ.size = 0) := by
  constructor
  · unfold QuantumState.make
    split
    · simp_all
    · simp_all
  · intro ψ hψ
    unfold QuantumState.make at hψ
    split at hψ
    · cases hψ
    · cases hψ
      refine ⟨by simp, rfl, rfl, rfl, ?_⟩
      simp [QuantumState.size]

/-! ## C3 — hard cap during accumulation -/

/-- C3 counterexample: soft cap 2, hard cap 2, one shard; a build that
accumulates three distinct keys ends with 3 > 2 entries — no truncation
ever ran during the build, refuting "the state size never exceeds the hard
cap at any point of a build". -/
theorem C3_counterexample :
    ((QuantumState.mk [[]] 2 2 false).build
        [(1, ⟨[false]⟩), (1, ⟨[true]⟩), (1, ⟨[false, false]⟩)]).size
      > (QuantumState.mk [[]] 2 2 false).hardMax := by
  norm_num [QuantumState.build, QuantumState.applyUpdate, QuantumState.size,
    Table.addTo, spin_to_index_one]

/-- C3 (amended): no hard-cap enforcement exists during accumulation.  The
`Updater` consumers only merge updates: a build's outcome is independent of
the hard cap (which is only the constructor's initial bucket count), no
shard ever loses an entry during a build, and the total size only grows —
in particular it is free to exceed the hard cap, as the counterexample
shows. -/
theorem C3_no_hard_cap_enforcement (ψ : QuantumState)
    (stream : List (ℂ × SpinVector)) (h' : ℕ) :
    (({ψ with hardMax := h'} : QuantumState).build stream).maps
        = (ψ.build stream).maps
    ∧ (∀ i, (ψ.maps.getD i []).length ≤ ((ψ.build stream).maps.getD i []).length)
    ∧ ψ.size ≤ (ψ.build stream).size := by
  refine ⟨by rw [QuantumState.build_hardMax], QuantumState.shard_le_build stream ψ, ?_⟩
  exact sum_length_le_of_pointwise ψ.maps (ψ.build stream).maps
    (QuantumState.maps_length_build stream ψ).symm
    (fun i => QuantumState.shard_le_build stream ψ i)

/-! ## C10 — single-shard CLI runs -/

theorem maps_length_trotter_fold (hamiltonian : Hamiltonian) (lambda : ℂ) :
    ∀ (l : List (SpinVector × ℂ)) (s : QuantumState),
      (l.foldl (fun acc x =>
          (acc.build (hamiltonian x.1 (-x.2))).applyUpdate (x.2 * lambda, x.1)) s).maps.length
        = s.maps.length
  | [], _ => rfl
  | x :: l, s => by
      rw [List.foldl_cons, maps_length_trotter_fold hamiltonian lambda l]
      rw [QuantumState.maps_length_applyUpdate, QuantumState.maps_length_build]

theorem maps_length_happlied_fold (hamiltonian : Hamiltonian) :
    ∀ (l : List (SpinVector × ℂ)) (s : QuantumState),
      (l.foldl (fun acc x => acc.build (hamiltonian x.1 x.2)) s).maps.length
        = s.maps.length
  | [], _ => rfl
  | x :: l, s => by
      rw [List.foldl_cons, maps_length_happlied_fold hamiltonian l]
      rw [QuantumState.maps_length_build]

/-- C10: the entry point constructs the quantum state with exactly one
shard (`number_workers = 1` at main.cpp:181), so the `Builder` holds
exactly one `Updater` (one consumer thread per build); with one shard the
shard index of every key is 0; and both `trotter_step` and `energy` build
their temporaries with the same shard count as their input, so a single
shard persists through the whole run. -/
theorem C10_single_shard (soft : ℕ) (hard : Option ℕ) (r : Bool) (hsoft : 2 ≤ soft)
    (lambda : ℂ) (hamiltonian : Hamiltonian) (ψ : QuantumState) (k : SpinVector) :
    (mainInitialState soft hard r
        = .ok ⟨List.replicate 1 [], soft, hard.getD (2 * soft), r⟩)
    ∧ spin_to_index k 1 = 0
    ∧ (∀ s, trotterStep lambda hamiltonian ψ = .ok s →
        s.maps.length = ψ.maps.length
          ∧ (builderUpdaters s).length = ψ.maps.length)
    ∧ (∀ s, hamiltonianApplied hamiltonian ψ = .ok s →
        s.maps.length = ψ.maps.length) := by
  refine ⟨?_, spin_to_index_one k, ?_, ?_⟩
  · unfold mainInitialState QuantumState.make
    rw [if_neg (by omega)]
  · intro s hs
    unfold trotterStep QuantumState.make at hs
    by_cases hc : ψ.softMax < 2
    · rw [if_pos hc] at hs
      simp [Except.map] at hs
    · rw [if_neg hc] at hs
      simp only [Except.map] at hs
      cases hs
      constructor
      · rw [maps_length_trotter_fold]
        simp
      · unfold builderUpdaters
        rw [maps_length_trotter_fold]
        simp
  · intro s hs
    unfold hamiltonianApplied QuantumState.make at hs
    by_cases hc : ψ.softMax < 2
    · rw [if_pos hc] at hs
      simp [Except.map] at hs
    · rw [if_neg hc] at hs
      simp only [Except.map] at hs
      cases hs
      rw [maps_length_happlied_fold]
      simp

/-- C10 witness: with one shard, any concrete key routes to shard 0. -/
theorem C10_single_shard_witness :
    spin_to_index ⟨[true, false, true]⟩ 1 = 0 :=
  (C10_single_shard 2 none false (by norm_num) 1 (fun _ _ => [])
    ⟨[[]], 2, 4, false⟩ ⟨[true, false, true]⟩).2.1

/-! ## C1 — structure of the power iteration -/

theorem QuantumState.build_append (s1 s2 : List (ℂ × SpinVector)) (ψ : QuantumState) :
    ψ.build (s1 ++ s2) = (ψ.build s1).build s2 := by
  unfold QuantumState.build
  rw [List.foldl_append]

/-- The per-entry pushes of `trotter_step` — all of `H(σ, −c, B)` followed
by `B += (c·λ, σ)` — accumulate to one build over the concatenated update
stream, in exactly that per-entry order. -/
theorem trotter_fold_eq_build (hamiltonian : Hamiltonian) (lambda : ℂ) :
    ∀ (l : List (SpinVector × ℂ)) (s : QuantumState),
      l.foldl (fun acc x =>
          (acc.build (hamiltonian x.1 (-x.2))).applyUpdate (x.2 * lambda, x.1)) s
        = s.build ((l.map (fun x =>
            hamiltonian x.1 (-x.2) ++ [(x.2 * lambda, x.1)])).flatten)
  | [], s => rfl
  | x :: l, s => by
      rw [List.foldl_cons, trotter_fold_eq_build hamiltonian lambda l]
      rw [List.map_cons, List.flatten_cons, List.append_assoc]
      rw [QuantumState.build_append]
      rfl

theorem diffusionForLoop_eq_nStepsFrom (lambda : ℂ) (hamiltonian : Hamiltonian)
    (gens : ℕ → ℕ → ℕ × ℝ) :
    ∀ (k i : ℕ) (s : QuantumState),
      diffusionForLoop lambda hamiltonian gens i (i + k) s
        = nStepsFrom lambda hamiltonian gens i k s
  | 0, i, s => by
      rw [diffusionForLoop]
      simp [nStepsFrom]
  | k + 1, i, s => by
      rw [diffusionForLoop]
      rw [if_pos (by omega)]
      show _ = nStepsFrom lambda hamiltonian gens i (k + 1) s
      unfold nStepsFrom
      congr 1
      funext s'
      have h1 : i + (k + 1) = (i + 1) + k := by omega
      rw [h1]
      exact diffusionForLoop_eq_nStepsFrom lambda hamiltonian gens k (i + 1) s'

/-- C1: the power-iteration driver.  `diffusion_loop` rejects
`iterations = 0` with an error; for `n ≥ 1` it applies the iteration body
exactly `n` times; the body is `trotter_step` followed by `shrink` (to the
soft cap) followed by `normalize`, in that order; and `trotter_step`
builds the new state by streaming, for every entry `(σ, c)` of ψ, first
the Hamiltonian's updates for `(σ, −c)` and then the update `(c·λ, σ)`. -/
theorem C1_diffusion_loop (lambda : ℂ) (hamiltonian : Hamiltonian) (ψ : QuantumState)
    (gens : ℕ → ℕ → ℕ × ℝ) (n : ℕ) (hn : 1 ≤ n) (hsoft : 2 ≤ ψ.softMax) :
    diffusionLoop lambda hamiltonian ψ 0 gens
        = .error "Number of iterations must be positive!"
    ∧ diffusionLoop lambda hamiltonian ψ n gens
        = nStepsFrom lambda hamiltonian gens 0 n ψ
    ∧ trotterStep lambda hamiltonian ψ
        = .ok (QuantumState.build
            ⟨List.replicate ψ.maps.length [], ψ.softMax, ψ.hardMax, ψ.useRandomSampling⟩
            ((ψ.entries.map (fun x =>
              hamiltonian x.1 (-x.2) ++ [(x.2 * lambda, x.1)])).flatten))
    ∧ (∀ g s, oneStep lambda hamiltonian g s
        = (trotterStep lambda hamiltonian s).bind
            (fun s1 => (s1.shrink g).bind (fun s2 => .ok s2.normalize))) := by
  refine ⟨by unfold diffusionLoop; rw [if_pos rfl], ?_, ?_, fun g s => rfl⟩
  · unfold diffusionLoop
    rw [if_neg (by omega)]
    obtain ⟨m, rfl⟩ : ∃ m, n = 1 + m := ⟨n - 1, by omega⟩
    rw [show (1 + m : ℕ) = m + 1 from by omega]
    unfold nStepsFrom
    congr 1
    funext s'
    have h2 := diffusionForLoop_eq_nStepsFrom lambda hamiltonian gens m 1 s'
    rw [show (1 + m : ℕ) = m + 1 from by omega] at h2
    exact h2
  · unfold trotterStep QuantumState.make
    rw [if_neg (by omega)]
    simp only [Except.map]
    rw [trotter_fold_eq_build]

/-- C1 witness: at λ = 1, an empty Hamiltonian, a two-slot deterministic
state and one iteration, the `n = 0` rejection given by the theorem. -/
theorem C1_diffusion_loop_witness :
    diffusionLoop 1 (fun _ _ => []) ⟨[[]], 2, 4, false⟩ 0 (fun _ _ => (0, 0))
      = .error "Number of iterations must be positive!" :=
  (C1_diffusion_loop 1 (fun _ _ => []) ⟨[[]], 2, 4, false⟩ (fun _ _ => (0, 0)) 1
    (by norm_num) (by norm_num)).1

/-! ## C6 — normalisation -/

theorem shard_weight_scale (t : Table) (s : ℝ) :
    ((t.map (fun x => (x.1, x.2 * (s : ℂ)))).map (fun x => Complex.normSq x.2)).sum
      = (t.map (fun x => Complex.normSq x.2)).sum * (s * s) := by
  induction t with
  | nil => simp
  | cons x t ih =>
      simp only [List.map_cons, List.sum_cons, ih]
      rw [Complex.normSq_mul, Complex.normSq_ofReal]
      ring

theorem maps_weight_scale (l : List Table) (s : ℝ) :
    ((l.map (fun t => t.map (fun x => (x.1, x.2 * (s : ℂ))))).map
        (fun t => (t.map (fun x => Complex.normSq x.2)).sum)).sum
      = ((l.map (fun t => (t.map (fun x => Complex.normSq x.2)).sum)).sum) * (s * s) := by
  induction l with
  | nil => simp
  | cons t l ih =>
      simp only [List.map_cons, List.sum_cons, ih, shard_weight_scale]
      ring

theorem QuantumState.normSum_nonneg (ψ : QuantumState) : 0 ≤ ψ.normSum := by
  unfold QuantumState.normSum
  apply List.sum_nonneg
  intro x hx
  obtain ⟨t, _, rfl⟩ := List.mem_map.mp hx
  apply List.sum_nonneg
  intro y hy
  obtain ⟨z, _, rfl⟩ := List.mem_map.mp hy
  exact Complex.normSq_nonneg z.2

/-- Scaling every amplitude by a real factor scales the total weight by its
square. -/
theorem QuantumState.normSum_scale (ψ : QuantumState) (s : ℝ) :
    ({ψ with maps := ψ.maps.map (fun t => t.map (fun x => (x.1, x.2 * (s : ℂ))))}
        : QuantumState).normSum = ψ.normSum * (s * s) := by
  unfold QuantumState.normSum
  exact maps_weight_scale ψ.maps s

theorem map_scale_one (t : Table) :
    t.map (fun x => (x.1, x.2 * (((1 : ℝ) : ℂ)))) = t := by
  simp

/-- C6: for a non-empty state with nonzero total weight, `normalize`
divides every amplitude by `√Σ|a|²` in place (keys, entry counts and every
other field unchanged), after which the total weight is exactly 1 (the
floating-point ε of the claim is 0 in exact arithmetic), and normalising
twice equals normalising once. -/
theorem C6_normalize (ψ : QuantumState) (hne : ψ.entries ≠ [])
    (h0 : ψ.normSum ≠ 0) :
    ψ.normalize.maps
        = ψ.maps.map (fun t => t.map (fun x => (x.1, x.2 / ((Real.sqrt ψ.normSum : ℝ) : ℂ))))
    ∧ (∀ i, (ψ.normalize.maps.getD i []).map Prod.fst
        = (ψ.maps.getD i []).map Prod.fst)
    ∧ ψ.normalize.size = ψ.size
    ∧ ψ.normalize.softMax = ψ.softMax
    ∧ ψ.normalize.normSum = 1
    ∧ ψ.normalize.normalize = ψ.normalize := by
  have hpos : 0 < ψ.normSum := lt_of_le_of_ne ψ.normSum_nonneg (Ne.symm h0)
  have hnorm1 : ψ.normalize.normSum = 1 := by
    unfold QuantumState.normalize
    rw [QuantumState.normSum_scale]
    rw [div_mul_div_comm, one_mul, Real.mul_self_sqrt hpos.le]
    field_simp
  refine ⟨?_, ?_, ?_, rfl, hnorm1, ?_⟩
  · unfold QuantumState.normalize
    dsimp only
    congr 1
    funext t
    congr 1
    funext x
    congr 1
    rw [Complex.ofReal_div, Complex.ofReal_one, mul_one_div]
  · intro i
    unfold QuantumState.normalize
    by_cases hi : i < ψ.maps.length
    · rw [List.getD_eq_getElem?_getD, List.getD_eq_getElem?_getD]
      simp only [List.getElem?_map]
      rw [List.getElem?_eq_getElem hi]
      simp [List.map_map, Function.comp]
    · rw [List.getD_eq_getElem?_getD, List.getD_eq_getElem?_getD]
      rw [List.getElem?_eq_none (by simpa using hi), List.getElem?_eq_none (by omega)]
  · unfold QuantumState.normalize QuantumState.size
    rw [List.map_map]
    congr 1
    apply List.map_congr_left
    intro t _
    simp
  · have hs1 : (1 / Real.sqrt ψ.normalize.normSum : ℝ) = 1 := by
      rw [hnorm1, Real.sqrt_one]
      norm_num
    ext1
    · show ψ.normalize.maps.map
          (fun t => t.map (fun x => (x.1, x.2 * ((1 / Real.sqrt ψ.normalize.normSum : ℝ) : ℂ))))
        = ψ.normalize.maps
      rw [hs1]
      rw [show (fun t : Table => t.map fun x => (x.1, x.2 * (((1 : ℝ) : ℂ)))) = id from
        funext fun t => by simpa using map_scale_one t]
      exact List.map_id _
    · rfl
    · rfl
    · rfl

/-- C6 witness: a one-entry state of amplitude 1 has nonzero weight, and
normalising it yields total weight exactly 1. -/
theorem C6_normalize_witness :
    (⟨[[(⟨[]⟩, 1)]], 2, 4, false⟩ : QuantumState).normalize.normSum = 1 :=
  (C6_normalize ⟨[[(⟨[]⟩, 1)]], 2, 4, false⟩
    (by simp [QuantumState.entries])
    (by norm_num [QuantumState.normSum, Complex.normSq_one])).2.2.2.2.1

/-! ## C7 — shard assignment and its preservation -/

theorem popCount_two_pow_sub_one : ∀ m : ℕ, popCount (2 ^ m - 1) = m
  | 0 => by simpa using popCount_zero
  | m + 1 => by
      have hpow : 1 ≤ 2 ^ m := Nat.one_le_two_pow
      have h1 : 2 ^ (m + 1) - 1 = 2 * (2 ^ m - 1) + 1 := by
        rw [pow_succ]
        omega
      rw [h1, popCount_succ]
      have h2 : (2 * (2 ^ m - 1) + 1) % 2 = 1 := by omega
      have h3 : (2 * (2 ^ m - 1) + 1) / 2 = 2 ^ m - 1 := by omega
      rw [h2, h3, popCount_two_pow_sub_one m]
      omega

theorem Table.mem_addTo (z : SpinVector × ℂ) (t : Table) :
    ∀ y ∈ Table.addTo t z, y ∈ t ∨ y.1 = z.1 := by
  induction t with
  | nil =>
      intro y hy
      simp [Table.addTo] at hy
      right
      rw [hy]
  | cons p rest ih =>
      intro y hy
      obtain ⟨k, a⟩ := p
      by_cases h : k = z.1
      · simp only [Table.addTo, if_pos h] at hy
        rcases List.mem_cons.mp hy with rfl | hmem
        · right
          exact h
        · exact Or.inl (List.mem_cons_of_mem _ hmem)
      · simp only [Table.addTo, if_neg h] at hy
        rcases List.mem_cons.mp hy with rfl | hmem
        · exact Or.inl (List.mem_cons_self _ _)
        · rcases ih y hmem with h' | h'
          · exact Or.inl (List.mem_cons_of_mem _ h')
          · exact Or.inr h'

theorem Table.mem_eraseKey (k : SpinVector) (t : Table) :
    ∀ y ∈ Table.eraseKey t k, y ∈ t := by
  induction t with
  | nil => intro y hy; simp [Table.eraseKey] at hy
  | cons p rest ih =>
      intro y hy
      obtain ⟨k', a⟩ := p
      by_cases h : k' = k
      · simp only [Table.eraseKey, if_pos h] at hy
        exact List.mem_cons_of_mem _ hy
      · simp only [Table.eraseKey, if_neg h] at hy
        rcases List.mem_cons.mp hy with rfl | hmem
        · exact List.mem_cons_self _ _
        · exact List.mem_cons_of_mem _ (ih y hmem)

theorem Table.mem_insertNew (x : SpinVector × ℂ) (t : Table) :
    ∀ y ∈ (Table.insertNew t x).1, y ∈ t ∨ y = x := by
  intro y hy
  unfold Table.insertNew at hy
  by_cases h : (Table.lookup t x.1).isSome
  · rw [if_pos h] at hy
    exact Or.inl hy
  · rw [if_neg h] at hy
    rcases List.mem_append.mp hy with hy' | hy'
    · exact Or.inl hy'
    · exact Or.inr (List.mem_singleton.mp hy')

theorem Table.lookup_mem (k : SpinVector) (a : ℂ) (t : Table) :
    Table.lookup t k = some a → (k, a) ∈ t := by
  induction t with
  | nil => intro h; simp [Table.lookup] at h
  | cons p rest ih =>
      intro h
      obtain ⟨k', b⟩ := p
      by_cases hk : k' = k
      · rw [Table.lookup, if_pos hk] at h
        cases h
        exact hk ▸ List.mem_cons_self _ _
      · rw [Table.lookup, if_neg hk] at h
        exact List.mem_cons_of_mem _ (ih h)

/-- Overwriting one shard with a table whose keys all route there keeps
the residence invariant. -/
theorem MapsSharded.set {m : List Table} (h : MapsSharded m) (i0 : ℕ) (T' : Table)
    (hkeys : i0 < m.length → ∀ x ∈ T', spin_to_index x.1 m.length = i0) :
    MapsSharded (m.set i0 T') := by
  intro j hj x hx
  rw [List.length_set] at hj
  by_cases hji : j = i0
  · subst hji
    rw [List.getD_eq_getElem?_getD, List.getElem?_set_self (by omega)] at hx
    simp only [Option.getD_some] at hx
    rw [List.length_set]
    exact hkeys hj x hx
  · rw [List.getD_eq_getElem?_getD, List.getElem?_set_ne (fun h' => hji h'.symm)] at hx
    rw [List.length_set]
    exact h j hj x (by rw [List.getD_eq_getElem?_getD]; exact hx)

theorem QuantumState.Sharded.applyUpdate {ψ : QuantumState} (h : ψ.Sharded)
    (u : ℂ × SpinVector) : (ψ.applyUpdate u).Sharded := by
  unfold QuantumState.Sharded QuantumState.applyUpdate
  apply MapsSharded.set h
  intro hlt x hx
  rcases Table.mem_addTo (u.2, u.1) _ x hx with h' | h'
  · exact h _ hlt x h'
  · rw [h']

theorem QuantumState.Sharded.build {ψ : QuantumState} (h : ψ.Sharded) :
    ∀ stream, (ψ.build stream).Sharded := by
  intro stream
  induction stream generalizing ψ with
  | nil => exact h
  | cons u rest ih => exact ih (h.applyUpdate u)

theorem QuantumState.Sharded.insert {ψ : QuantumState} (h : ψ.Sharded)
    (x : SpinVector × ℂ) : (ψ.insert x).Sharded := by
  unfold QuantumState.Sharded QuantumState.insert
  apply MapsSharded.set h
  intro hlt y hy
  rcases Table.mem_insertNew x _ y hy with h' | h'
  · exact h _ hlt y h'
  · rw [h']

theorem QuantumState.Sharded.clear {ψ : QuantumState} (h : ψ.Sharded) :
    ψ.clear.Sharded := by
  intro j hj x hx
  simp only [QuantumState.clear, List.length_map] at hj
  simp only [QuantumState.clear, List.getD_eq_getElem?_getD, List.getElem?_map,
    List.getElem?_eq_getElem hj] at hx
  simp at hx

theorem QuantumState.Sharded.normalize {ψ : QuantumState} (h : ψ.Sharded) :
    ψ.normalize.Sharded := by
  intro j hj x hx
  simp only [QuantumState.normalize, List.length_map] at hj ⊢
  simp only [QuantumState.normalize, List.getD_eq_getElem?_getD, List.getElem?_map,
    List.getElem?_eq_getElem hj, Option.map_some, Option.getD_some] at hx
  obtain ⟨y, hy, rfl⟩ := List.mem_map.mp hx
  have := h j hj y (by rw [List.getD_eq_getElem?_getD, List.getElem?_eq_getElem hj]; exact hy)
  simpa using this

theorem MapsSharded.erase_fold {m : List Table} (h : MapsSharded m) :
    ∀ victims : List (SpinVector × ℝ),
      MapsSharded (victims.foldl (fun ms v =>
        ms.set (spin_to_index v.1 ms.length)
          (Table.eraseKey (ms.getD (spin_to_index v.1 ms.length) []) v.1)) m) := by
  intro victims
  induction victims generalizing m with
  | nil => exact h
  | cons v rest ih =>
      rw [List.foldl_cons]
      apply ih
      apply MapsSharded.set h
      intro hlt x hx
      exact h _ hlt x (Table.mem_eraseKey v.1 _ x hx)

theorem QuantumState.Sharded.remove_least {ψ : QuantumState} (h : ψ.Sharded)
    (count : ℕ) : (ψ.remove_least count).Sharded := by
  unfold QuantumState.Sharded QuantumState.remove_least
  exact MapsSharded.erase_fold h _

theorem QuantumState.Sharded.insert_fold {α : Type} (g : α → SpinVector × ℂ) :
    ∀ (l : List α) (ψ : QuantumState), ψ.Sharded →
      (l.foldl (fun acc i => acc.insert (g i)) ψ).Sharded
  | [], _, h => h
  | i :: l, ψ, h => by
      rw [List.foldl_cons]
      exact QuantumState.Sharded.insert_fold g l (ψ.insert (g i)) (h.insert (g i))

theorem QuantumState.Sharded.random_resample {ψ : QuantumState} (h : ψ.Sharded)
    (count : ℕ) (draws : ℕ → ℕ × ℝ) (s : QuantumState)
    (hs : ψ.random_resample count draws = .ok s) : s.Sharded := by
  unfold QuantumState.random_resample at hs
  dsimp only at hs
  split at hs
  · cases hs
  · cases hs
    exact QuantumState.Sharded.insert_fold _ (List.range count) ψ.clear h.clear

theorem QuantumState.Sharded.shrink {ψ : QuantumState} (h : ψ.Sharded)
    (draws : ℕ → ℕ × ℝ) (s : QuantumState) (hs : ψ.shrink draws = .ok s) :
    s.Sharded := by
  unfold QuantumState.shrink at hs
  by_cases hr : ψ.useRandomSampling
  · rw [if_pos hr] at hs
    exact h.random_resample _ _ s hs
  · rw [if_neg hr] at hs
    cases hs
    by_cases hsz : ψ.size > ψ.softMax
    · rw [if_pos hsz]
      exact h.remove_least _
    · rw [if_neg hsz]
      exact h

/-- C7: for a power-of-two shard count `N = 2^m`, the shard of a key is the
top `m` bits of the key's first byte; every key found resides in shard
`shard(k)`; a key present in two shards forces them equal (given the
residence invariant); and the invariant is preserved by `insert`, by a
whole build (Builder routing plus Updater processing), by `remove_least`,
`normalize`, `clear`, `random_resample` and `shrink` — `insert`, `find`
and the Builder all route through the same `spin_to_index`. -/
theorem C7_shard_invariant (m : ℕ) (k : SpinVector) (n count : ℕ)
    (ψ : QuantumState) (x : SpinVector × ℂ) (stream : List (ℂ × SpinVector))
    (draws : ℕ → ℕ × ℝ) (hψ : ψ.Sharded) :
    spin_to_index k (2 ^ m) = k.byte0 >>> (8 - m)
    ∧ (ψ.insert x).Sharded
    ∧ (ψ.build stream).Sharded
    ∧ (∀ a, ψ.find k = some a → (k, a) ∈ ψ.maps.getD (spin_to_index k ψ.maps.length) [])
    ∧ (∀ i j, i < ψ.maps.length → j < ψ.maps.length →
        (∃ a, (k, a) ∈ ψ.maps.getD i []) → (∃ b, (k, b) ∈ ψ.maps.getD j []) → i = j)
    ∧ (ψ.remove_least n).Sharded
    ∧ ψ.normalize.Sharded
    ∧ ψ.clear.Sharded
    ∧ (∀ s, ψ.random_resample count draws = .ok s → s.Sharded)
    ∧ (∀ s, ψ.shrink draws = .ok s → s.Sharded) := by
  refine ⟨?_, hψ.insert x, hψ.build stream, ?_, ?_, hψ.remove_least n, hψ.normalize,
    hψ.clear, fun s hs => hψ.random_resample count draws s hs,
    fun s hs => hψ.shrink draws s hs⟩
  · unfold spin_to_index
    rw [popCount_two_pow_sub_one]
  · intro a ha
    exact Table.lookup_mem k a _ ha
  · rintro i j hi hj ⟨a, hai⟩ ⟨b, hbj⟩
    have h1 := hψ i hi (k, a) hai
    have h2 := hψ j hj (k, b) hbj
    rw [← h1, ← h2]

/-- C7 witness: with `N = 2` shards, a concrete key's shard is the top bit
of its first byte (the invariant hypothesis holds for the empty two-shard
state). -/
theorem C7_shard_invariant_witness :
    spin_to_index ⟨[true]⟩ (2 ^ 1) = SpinVector.byte0 ⟨[true]⟩ >>> (8 - 1) :=
  (C7_shard_invariant 1 ⟨[true]⟩ 0 0 ⟨[[], []], 2, 4, false⟩ (⟨[true]⟩, 1) []
    (fun _ => (0, 0))
    (by intro i hi x hx; rcases i with _ | _ | i <;> simp [List.getD] at hx)).1

/-! ## C4 — deterministic truncation -/

theorem foldr_append_eq_flatten {α : Type} :
    ∀ l : List (List α), l.foldr (· ++ ·) [] = l.flatten
  | [] => rfl
  | t :: l => by rw [List.foldr_cons, List.flatten_cons, foldr_append_eq_flatten l]

theorem Table.eraseKey_sublist (k : SpinVector) :
    ∀ t : Table, (Table.eraseKey t k).Sublist t := by
  intro t
  induction t with
  | nil => simp [Table.eraseKey]
  | cons p rest ih =>
      obtain ⟨k', a⟩ := p
      by_cases h : k' = k
      · rw [Table.eraseKey, if_pos h]
        exact List.sublist_cons_self _ _
      · rw [Table.eraseKey, if_neg h]
        exact ih.cons₂ _

theorem Table.filter_eq_self_of_not_mem (k : SpinVector) (t : Table)
    (h : k ∉ t.map Prod.fst) :
    t.filter (fun x => decide (x.1 ≠ k)) = t := by
  apply List.filter_eq_self.mpr
  intro x hx
  have : x.1 ≠ k := fun he => h (he ▸ List.mem_map_of_mem Prod.fst hx)
  simpa using this

theorem Table.eraseKey_eq_filter (k : SpinVector) :
    ∀ t : Table, (t.map Prod.fst).Nodup →
      Table.eraseKey t k = t.filter (fun x => decide (x.1 ≠ k)) := by
  intro t
  induction t with
  | nil => intro _; rfl
  | cons p rest ih =>
      intro hnd
      obtain ⟨k', a⟩ := p
      rw [List.map_cons, List.nodup_cons] at hnd
      by_cases h : k' = k
      · rw [Table.eraseKey, if_pos h]
        rw [List.filter_cons_of_neg (by simpa using h)]
        exact (Table.filter_eq_self_of_not_mem k rest (h ▸ hnd.1)).symm
      · rw [Table.eraseKey, if_neg h]
        rw [List.filter_cons_of_pos (by simpa using h)]
        rw [ih hnd.2]

theorem Table.eraseKey_length (k : SpinVector) :
    ∀ t : Table, k ∈ t.map Prod.fst →
      (Table.eraseKey t k).length + 1 = t.length := by
  intro t
  induction t with
  | nil => intro h; simp at h
  | cons p rest ih =>
      intro h
      obtain ⟨k', a⟩ := p
      rw [List.map_cons] at h
      by_cases hk : k' = k
      · rw [Table.eraseKey, if_pos hk]
        simp
      · rw [Table.eraseKey, if_neg hk]
        have hr : k ∈ rest.map Prod.fst := by
          rcases List.mem_cons.mp h with h' | h'
          · exact absurd h'.symm hk
          · exact h'
        have := ih hr
        simp only [List.length_cons]
        omega

theorem Table.mem_keys_eraseKey (k k' : SpinVector) (hne : k' ≠ k) :
    ∀ t : Table, k' ∈ t.map Prod.fst →
      k' ∈ (Table.eraseKey t k).map Prod.fst := by
  intro t
  induction t with
  | nil => intro h; simp at h
  | cons p rest ih =>
      intro h
      obtain ⟨k'', a⟩ := p
      rw [List.map_cons] at h
      rcases List.mem_cons.mp h with h' | h'
      · subst h'
        rw [Table.eraseKey, if_neg hne]
        simp
      · by_cases hk : k'' = k
        · rw [Table.eraseKey, if_pos hk]
          exact h'
        · rw [Table.eraseKey, if_neg hk]
          rw [List.map_cons]
          exact List.mem_cons_of_mem _ (ih h')

theorem mem_set_of_mem {α : Type} :
    ∀ (l : List α) (i : ℕ) (a x : α), x ∈ l.set i a → x ∈ l ∨ x = a
  | [], _, _, _, h => by simp at h
  | b :: l, 0, a, x, h => by
      rcases List.mem_cons.mp h with h' | h'
      · exact Or.inr h'
      · exact Or.inl (List.mem_cons_of_mem _ h')
  | b :: l, i + 1, a, x, h => by
      rcases List.mem_cons.mp h with h' | h'
      · exact Or.inl (h' ▸ List.mem_cons_self _ _)
      · rcases mem_set_of_mem l i a x h' with h'' | h''
        · exact Or.inl (List.mem_cons_of_mem _ h'')
        · exact Or.inr h''

theorem sum_map_length_set :
    ∀ (m : List Table) (i : ℕ) (t' : Table), i < m.length →
      ((m.set i t').map List.length).sum + (m.getD i []).length
        = (m.map List.length).sum + t'.length
  | [], i, _, h => by simp at h
  | t :: m, 0, t', _ => by
      simp only [List.set_cons_zero, List.map_cons, List.sum_cons, List.getD_cons_zero]
      omega
  | t :: m, i + 1, t', h => by
      simp only [List.set_cons_succ, List.map_cons, List.sum_cons, List.getD_cons_succ]
      have := sum_map_length_set m i t' (by simpa using h)
      omega

/-- The erase fold of `remove_least`, factored for reasoning. -/
theorem erase_fold_length :
    ∀ (vs : List (SpinVector × ℝ)) (m : List Table),
      (vs.foldl (fun ms v => ms.set (spin_to_index v.1 ms.length)
        (Table.eraseKey (ms.getD (spin_to_index v.1 ms.length) []) v.1)) m).length
        = m.length
  | [], _ => rfl
  | v :: vs, m => by
      rw [List.foldl_cons, erase_fold_length vs]
      exact List.length_set m _ _

/-- Each erased victim, present in its shard and with a fresh key, lowers
the total size by exactly one. -/
theorem erase_fold_size :
    ∀ (vs : List (SpinVector × ℝ)) (m : List Table),
      (vs.map Prod.fst).Nodup →
      (∀ v ∈ vs, v.1 ∈ (m.getD (spin_to_index v.1 m.length) []).map Prod.fst) →
      ((vs.foldl (fun ms v => ms.set (spin_to_index v.1 ms.length)
          (Table.eraseKey (ms.getD (spin_to_index v.1 ms.length) []) v.1)) m).map
            List.length).sum + vs.length
        = (m.map List.length).sum
  | [], m, _, _ => by simp
  | v :: vs, m, hnd, hpres => by
      rw [List.foldl_cons]
      rw [List.map_cons, List.nodup_cons] at hnd
      have hpv := hpres v (List.mem_cons_self _ _)
      set iv := spin_to_index v.1 m.length with hiv
      have hivlt : iv < m.length := by
        by_contra hge
        rw [List.getD_eq_getElem?_getD, List.getElem?_eq_none (by omega)] at hpv
        simp at hpv
      set m' := m.set iv (Table.eraseKey (m.getD iv []) v.1) with hm'
      have hlen' : m'.length = m.length := List.length_set m _ _
      have hrec := erase_fold_size vs m' hnd.2 ?_
      · have hsz : ((m.set iv (Table.eraseKey (m.getD iv []) v.1)).map List.length).sum
            + (m.getD iv []).length
            = (m.map List.length).sum + (Table.eraseKey (m.getD iv []) v.1).length :=
          sum_map_length_set m iv _ hivlt
        have hel : (Table.eraseKey (m.getD iv []) v.1).length + 1
            = (m.getD iv []).length := Table.eraseKey_length v.1 _ hpv
        rw [← hm'] at hsz
        simp only [List.length_cons]
        omega
      · intro v' hv'
        have hk : v'.1 ≠ v.1 := by
          intro he
          exact hnd.1 (he ▸ List.mem_map_of_mem Prod.fst hv')
        have hp' := hpres v' (List.mem_cons_of_mem _ hv')
        rw [show spin_to_index v'.1 m'.length = spin_to_index v'.1 m.length from by
          rw [hlen']]
        by_cases hsame : spin_to_index v'.1 m.length = iv
        · rw [hsame] at hp' ⊢
          rw [hm', List.getD_eq_getElem?_getD, List.getElem?_set_self (by omega)]
          simp only [Option.getD_some]
          exact Table.mem_keys_eraseKey v.1 v'.1 hk _ hp'
        · rw [hm', List.getD_eq_getElem?_getD, List.getElem?_set_ne (fun h => hsame h.symm)]
          rw [List.getD_eq_getElem?_getD] at hp'
          exact hp'

/-- After the erase fold, shard `i` holds exactly its original entries
whose key is not among the victims (given the residence invariant and
per-shard key uniqueness). -/
theorem erase_fold_getD :
    ∀ (vs : List (SpinVector × ℝ)) (m : List Table), MapsSharded m →
      (∀ t ∈ m, (t.map Prod.fst).Nodup) →
      ∀ i, i < m.length →
        (vs.foldl (fun ms v => ms.set (spin_to_index v.1 ms.length)
          (Table.eraseKey (ms.getD (spin_to_index v.1 ms.length) []) v.1)) m).getD i []
          = (m.getD i []).filter (fun x => decide (x.1 ∉ vs.map Prod.fst))
  | [], m, _, _, i, hi => by
      simp
  | v :: vs, m, hsh, hnd, i, hi => by
      rw [List.foldl_cons]
      set iv := spin_to_index v.1 m.length with hiv
      set m' := m.set iv (Table.eraseKey (m.getD iv []) v.1) with hm'
      have hlen' : m'.length = m.length := List.length_set m _ _
      have hsh' : MapsSharded m' := by
        apply MapsSharded.set hsh
        intro hlt x hx
        exact hsh _ hlt x (Table.mem_eraseKey v.1 _ x hx)
      have hnd' : ∀ t ∈ m', (t.map Prod.fst).Nodup := by
        intro t ht
        rcases mem_set_of_mem m iv _ t ht with h' | h'
        · exact hnd t h'
        · subst h'
          by_cases hivlt : iv < m.length
          · have : (m.getD iv []).map Prod.fst |>.Nodup := by
              apply hnd
              rw [List.getD_eq_getElem?_getD, List.getElem?_eq_getElem hivlt]
              exact List.getElem_mem _
            exact List.Nodup.sublist
              (List.Sublist.map Prod.fst (Table.eraseKey_sublist v.1 _)) this
          · rw [List.getD_eq_getElem?_getD, List.getElem?_eq_none (by omega)]
            simp [Table.eraseKey]
      have hrec := erase_fold_getD vs m' hsh' hnd' i (by omega)
      rw [hrec]
      by_cases hsame : i = iv
      · rw [hsame] at hi ⊢
        rw [hm', List.getD_eq_getElem?_getD, List.getElem?_set_self (by omega)]
        simp only [Option.getD_some]
        have hndi : ((m.getD iv []).map Prod.fst).Nodup := by
          apply hnd
          rw [List.getD_eq_getElem?_getD, List.getElem?_eq_getElem hi]
          exact List.getElem_mem _
        rw [Table.eraseKey_eq_filter v.1 _ hndi]
        rw [List.filter_filter]
        apply List.filter_congr
        intro x hx
        have hbe : (x.1 == v.1) = decide (x.1 = v.1) := rfl
        simp [List.mem_cons, not_or, Bool.and_comm, hbe]
      · rw [hm', List.getD_eq_getElem?_getD, List.getElem?_set_ne (fun h => hsame h.symm)]
        rw [← List.getD_eq_getElem?_getD]
        apply List.filter_congr
        intro x hx
        have hxk : x.1 ≠ v.1 := by
          intro he
          have h1 := hsh i hi x hx
          rw [he] at h1
          exact hsame h1.symm
        simp [List.mem_cons, not_or, hxk]

theorem eq_of_mem_keys_nodup {β : Type} :
    ∀ {l : List (SpinVector × β)}, (l.map Prod.fst).Nodup →
      ∀ {x y : SpinVector × β}, x ∈ l → y ∈ l → x.1 = y.1 → x = y := by
  intro l
  induction l with
  | nil => intro _ x y hx; simp at hx
  | cons p rest ih =>
      intro hnd x y hx hy hk
      rw [List.map_cons, List.nodup_cons] at hnd
      rcases List.mem_cons.mp hx with rfl | hx'
      · rcases List.mem_cons.mp hy with rfl | hy'
        · rfl
        · exact absurd (hk ▸ List.mem_map_of_mem Prod.fst hy') hnd.1
      · rcases List.mem_cons.mp hy with rfl | hy'
        · exact absurd (hk ▸ List.mem_map_of_mem Prod.fst hx') hnd.1
        · exact ih hnd.2 hx' hy' hk
  -- note: the `hk ▸` in the second branch rewrites `p.1` with `x.1` in the goal

theorem pairwise_take_drop {α : Type} {r : α → α → Prop} {l : List α}
    (h : l.Pairwise r) (n : ℕ) :
    ∀ x ∈ l.take n, ∀ y ∈ l.drop n, r x y := by
  rw [← List.take_append_drop n l, List.pairwise_append] at h
  exact h.2.2

/-- The gathered `(key, weight)` buffer of `remove_least`, as a flattened
list. -/
theorem items_eq_flatten (m : List Table) :
    (m.map (fun t => t.map (fun x => (x.1, Complex.normSq x.2)))).foldr (· ++ ·) []
      = (m.map (fun t => t.map (fun x => (x.1, Complex.normSq x.2)))).flatten :=
  foldr_append_eq_flatten _

theorem items_length (m : List Table) :
    ((m.map (fun t => t.map (fun x => (x.1, Complex.normSq x.2)))).flatten).length
      = (m.map List.length).sum := by
  rw [List.length_flatten, List.map_map]
  congr 1
  apply List.map_congr_left
  intro t _
  simp

theorem items_keys_nodup {m : List Table} (hsh : MapsSharded m)
    (hnd : ∀ t ∈ m, (t.map Prod.fst).Nodup) :
    (((m.map (fun t => t.map (fun x => (x.1, Complex.normSq x.2)))).flatten).map
      Prod.fst).Nodup := by
  rw [List.map_flatten, List.map_map]
  rw [show (List.map Prod.fst ∘ fun t : Table =>
        List.map (fun x => (x.1, Complex.normSq x.2)) t)
      = (fun t : Table => t.map Prod.fst) from funext fun t => by
    rw [Function.comp_apply, List.map_map]
    apply List.map_congr_left
    intro x _
    rfl]
  rw [List.nodup_flatten]
  constructor
  · intro l hl
    rw [List.mem_map] at hl
    obtain ⟨t, ht, rfl⟩ := hl
    exact hnd t ht
  · rw [List.pairwise_iff_getElem]
    intro i j hi hj hij
    simp only [List.length_map] at hi hj
    intro a hai haj
    simp only [List.getElem_map] at hai haj
    rw [List.mem_map] at hai haj
    obtain ⟨x, hx, rfl⟩ := hai
    obtain ⟨y, hy, hk⟩ := haj
    have h1 := hsh i hi x (by
      rw [List.getD_eq_getElem?_getD, List.getElem?_eq_getElem hi]
      exact hx)
    have h2 := hsh j hj y (by
      rw [List.getD_eq_getElem?_getD, List.getElem?_eq_getElem hj]
      exact hy)
    rw [hk] at h2
    omega

theorem mem_items_present {m : List Table} (hsh : MapsSharded m)
    (v : SpinVector × ℝ) :
    v ∈ (m.map (fun t => t.map (fun x => (x.1, Complex.normSq x.2)))).flatten →
      v.1 ∈ (m.getD (spin_to_index v.1 m.length) []).map Prod.fst := by
  intro hv
  rw [List.mem_flatten] at hv
  obtain ⟨tf, htf, hvtf⟩ := hv
  rw [List.mem_map] at htf
  obtain ⟨t, ht, rfl⟩ := htf
  rw [List.mem_map] at hvtf
  obtain ⟨x, hx, rfl⟩ := hvtf
  obtain ⟨i, hilen, rfl⟩ := List.mem_iff_getElem.mp ht
  have hxi := hsh i hilen x (by
    rw [List.getD_eq_getElem?_getD, List.getElem?_eq_getElem hilen]
    exact hx)
  show x.1 ∈ (m.getD (spin_to_index x.1 m.length) []).map Prod.fst
  rw [hxi, List.getD_eq_getElem?_getD, List.getElem?_eq_getElem hilen]
  exact List.mem_map_of_mem Prod.fst hx

theorem mem_items_of_mem_shard {m : List Table} {i : ℕ} (hi : i < m.length)
    {x : SpinVector × ℂ} (hx : x ∈ m.getD i []) :
    (x.1, Complex.normSq x.2)
      ∈ (m.map (fun t => t.map (fun x => (x.1, Complex.normSq x.2)))).flatten := by
  rw [List.mem_flatten]
  refine ⟨(m.getD i []).map (fun x => (x.1, Complex.normSq x.2)), ?_, ?_⟩
  · rw [List.getD_eq_getElem?_getD, List.getElem?_eq_getElem hi]
    exact List.mem_map_of_mem _ (List.getElem_mem _)
  · exact List.mem_map_of_mem _ hx

/-- C4: in deterministic mode, `shrink` removes nothing when
`size ≤ soft_max`, and when `size > soft_max` it removes exactly
`size − soft_max` entries of smallest `|amplitude|²` (ties broken
arbitrarily): the result has exactly `soft_max` entries, every surviving
shard is a sublist of the original (keys and amplitudes untouched), and
every removed entry's weight is ≤ every survivor's weight. -/
theorem C4_deterministic_shrink (ψ : QuantumState) (draws : ℕ → ℕ × ℝ)
    (hmode : ψ.useRandomSampling = false) (hsh : ψ.Sharded) (hnd : ψ.KeysUnique) :
    (ψ.size ≤ ψ.softMax → ψ.shrink draws = .ok ψ)
    ∧ (ψ.size > ψ.softMax →
        ∃ s, ψ.shrink draws = .ok s
          ∧ s.size = ψ.softMax
          ∧ (∀ i, (s.maps.getD i []).Sublist (ψ.maps.getD i []))
          ∧ (∀ i, i < ψ.maps.length → ∀ x ∈ ψ.maps.getD i [],
              x ∉ s.maps.getD i [] →
                ∀ j, j < ψ.maps.length → ∀ y ∈ s.maps.getD j [],
                  Complex.normSq x.2 ≤ Complex.normSq y.2)) := by
  have hshrink : ψ.shrink draws = .ok (if ψ.size > ψ.softMax
      then ψ.remove_least (ψ.size - ψ.softMax) else ψ) := by
    unfold QuantumState.shrink
    rw [if_neg (by simp [hmode])]
  refine ⟨fun hle => by rw [hshrink, if_neg (by omega)], fun hgt => ?_⟩
  set count := ψ.size - ψ.softMax with hcount
  set items := (ψ.maps.map (fun t => t.map (fun x => (x.1, Complex.normSq x.2)))).flatten
    with hitemsdef
  set sorted := items.insertionSort weightLE with hsorteddef
  set victims := sorted.take count with hvict
  have hrl : (ψ.remove_least count).maps
      = victims.foldl (fun ms v => ms.set (spin_to_index v.1 ms.length)
          (Table.eraseKey (ms.getD (spin_to_index v.1 ms.length) []) v.1)) ψ.maps := by
    unfold QuantumState.remove_least
    dsimp only
    rw [items_eq_flatten]
  have hperm : sorted.Perm items := List.perm_insertionSort _ _
  have hpw : sorted.Pairwise weightLE := List.sorted_insertionSort weightLE items
  have hlen_items : items.length = ψ.size := items_length ψ.maps
  have hsorted_len : sorted.length = ψ.size := by rw [hperm.length_eq, hlen_items]
  have hvlen : victims.length = count := by
    rw [hvict, List.length_take, hsorted_len]
    omega
  have hkeysnd : (items.map Prod.fst).Nodup := items_keys_nodup hsh hnd
  have hskeys : (sorted.map Prod.fst).Nodup := ((hperm.map Prod.fst).nodup_iff).mpr hkeysnd
  have hvkeysnd : (victims.map Prod.fst).Nodup := by
    rw [hvict, List.map_take]
    exact List.Nodup.sublist (List.take_sublist _ _) hskeys
  have hpres : ∀ v ∈ victims,
      v.1 ∈ (ψ.maps.getD (spin_to_index v.1 ψ.maps.length) []).map Prod.fst := by
    intro v hv
    have hv' : v ∈ items := hperm.mem_iff.mp ((List.take_sublist _ _).subset hv)
    exact mem_items_present hsh v hv'
  have hsize : (ψ.remove_least count).size = ψ.softMax := by
    show ((ψ.remove_least count).maps.map List.length).sum = _
    rw [hrl]
    have h1 := erase_fold_size victims ψ.maps hvkeysnd hpres
    rw [hvlen] at h1
    have h2 : ((ψ.maps.map List.length).sum : ℕ) = ψ.size := rfl
    omega
  have hsub : ∀ i, ((ψ.remove_least count).maps.getD i []).Sublist
      (ψ.maps.getD i []) := by
    intro i
    by_cases hi : i < ψ.maps.length
    · rw [hrl, erase_fold_getD victims ψ.maps hsh hnd i hi]
      exact List.filter_sublist _
    · rw [hrl, List.getD_eq_getElem?_getD,
        List.getElem?_eq_none (by rw [erase_fold_length]; omega)]
      exact List.nil_sublist _
  refine ⟨ψ.remove_least count, by rw [hshrink, if_pos hgt], hsize, hsub, ?_⟩
  intro i hi x hx hxnot j hj y hy
  rw [hrl, erase_fold_getD victims ψ.maps hsh hnd i hi] at hxnot
  rw [hrl, erase_fold_getD victims ψ.maps hsh hnd j hj] at hy
  have hxv : x.1 ∈ victims.map Prod.fst := by
    by_contra hno
    exact hxnot (List.mem_filter.mpr ⟨hx, by simpa using hno⟩)
  have hy' := List.mem_filter.mp hy
  have hyin : y ∈ ψ.maps.getD j [] := hy'.1
  have hynot : y.1 ∉ victims.map Prod.fst := by simpa using hy'.2
  obtain ⟨v, hvmem, hvk⟩ := List.mem_map.mp hxv
  have hfx_sorted : (x.1, Complex.normSq x.2) ∈ sorted :=
    hperm.mem_iff.mpr (mem_items_of_mem_shard hi hx)
  have hv_sorted : v ∈ sorted := (List.take_sublist _ _).subset hvmem
  have hveq : v = (x.1, Complex.normSq x.2) :=
    eq_of_mem_keys_nodup hskeys hv_sorted hfx_sorted (by rw [hvk])
  have hfy_sorted : (y.1, Complex.normSq y.2) ∈ sorted :=
    hperm.mem_iff.mpr (mem_items_of_mem_shard hj hyin)
  rw [← List.take_append_drop count sorted] at hfy_sorted
  rcases List.mem_append.mp hfy_sorted with hmem | hmem
  · exact absurd (List.mem_map_of_mem Prod.fst hmem) (by rw [hvict] at hynot; exact hynot)
  · have hle := pairwise_take_drop hpw count v (hvict ▸ hvmem) _ hmem
    rw [hveq] at hle
    exact hle

/-- C4 witness: with soft cap 2 and three single-shard entries of weights
1, 4, 9, the deterministic shrink returns a state of exactly 2 entries. -/
theorem C4_deterministic_shrink_witness :
    ((⟨[[(⟨[false]⟩, 1), (⟨[true]⟩, 2), (⟨[false, true]⟩, 3)]], 2, 4, false⟩
        : QuantumState).shrink (fun _ => (0, 0))).map QuantumState.size
      = .ok 2 := by
  obtain ⟨s, hs1, hs2, _, _⟩ :=
    (C4_deterministic_shrink
      ⟨[[(⟨[false]⟩, 1), (⟨[true]⟩, 2), (⟨[false, true]⟩, 3)]], 2, 4, false⟩
      (fun _ => (0, 0)) rfl
      (by
        intro i hi x hx
        rcases i with _ | i
        · exact spin_to_index_one x.1
        · simp only [List.length_cons, List.length_nil] at hi
          omega)
      (by
        intro t ht
        simp only [List.mem_singleton] at ht
        subst ht
        decide)).2 (by decide)
  rw [hs1]
  simp only [Except.map]
  rw [hs2]

/-! ## C9 — alias-method safety -/

theorem fold_update_const {γ : Type} (c : γ) :
    ∀ (l : List ℕ) (g : ℕ → γ) (i : ℕ),
      (l.foldl (fun p j => Function.update p j c) g) i
        = if i ∈ l then c else g i
  | [], g, i => by simp
  | j :: l, g, i => by
      rw [List.foldl_cons, fold_update_const c l (Function.update g j c) i]
      by_cases hil : i ∈ l
      · rw [if_pos hil, if_pos (List.mem_cons_of_mem _ hil)]
      · rw [if_neg hil]
        by_cases hij : i = j
        · subst hij
          rw [Function.update_same, if_pos (List.mem_cons_self _ _)]
        · rw [Function.update_noteq hij, if_neg (by
            intro hmem
            rcases List.mem_cons.mp hmem with h | h
            · exact hij h
            · exact hil h)]


/-- Invariant of the alias pairing loop: partition elements stay below `n`,
and every index below `n` is either still pending in a partition or its
table row is finished — leftover shape (`alias = SIZE_MAX`, `prob = 1`) or
a real alias below `n`. -/
theorem aliasLoop_invariant (n : ℕ) (small large : List ℕ) (w prob : ℕ → ℝ)
    (aliasT : ℕ → ℕ) :
    (∀ x ∈ small, x < n) → (∀ x ∈ large, x < n) →
    (∀ i, i < n → i ∈ small ∨ i ∈ large
      ∨ (aliasT i = sizeTSentinel ∧ prob i = 1) ∨ aliasT i < n) →
    (∀ x ∈ (aliasLoop small large w prob aliasT).2.2.1, x < n)
    ∧ (∀ x ∈ (aliasLoop small large w prob aliasT).2.2.2, x < n)
    ∧ (∀ i, i < n → i ∈ (aliasLoop small large w prob aliasT).2.2.1
        ∨ i ∈ (aliasLoop small large w prob aliasT).2.2.2
        ∨ ((aliasLoop small large w prob aliasT).2.1 i = sizeTSentinel
            ∧ (aliasLoop small large w prob aliasT).1 i = 1)
        ∨ (aliasLoop small large w prob aliasT).2.1 i < n) := by
  induction small, large, w, prob, aliasT using aliasLoop.induct with
  | case1 large w prob aliasT =>
      intro _ hlarge hinv
      simp only [aliasLoop]
      refine ⟨by simp, hlarge, ?_⟩
      intro i hi
      rcases hinv i hi with h | h | h | h
      · simp at h
      · exact Or.inr (Or.inl h)
      · exact Or.inr (Or.inr (Or.inl h))
      · exact Or.inr (Or.inr (Or.inr h))
  | case2 low smallRest w prob aliasT =>
      intro hsmall _ hinv
      simp only [aliasLoop]
      refine ⟨hsmall, by simp, ?_⟩
      intro i hi
      rcases hinv i hi with h | h | h | h
      · exact Or.inl h
      · simp at h
      · exact Or.inr (Or.inr (Or.inl h))
      · exact Or.inr (Or.inr (Or.inr h))
  | case3 low smallRest high largeRest w prob aliasT prob' aliasT' w' hcond ih =>
      intro hsmall hlarge hinv
      rw [show aliasLoop (low :: smallRest) (high :: largeRest) w prob aliasT
          = aliasLoop (high :: smallRest) largeRest
              (Function.update w high ((w low + w high) - 1))
              (Function.update prob low (w low))
              (Function.update aliasT low high) from by
        rw [aliasLoop]
        rw [if_pos hcond]]
      apply ih
      · intro x hx
        rcases List.mem_cons.mp hx with rfl | hx'
        · exact hlarge x (List.mem_cons_self _ _)
        · exact hsmall x (List.mem_cons_of_mem _ hx')
      · intro x hx
        exact hlarge x (List.mem_cons_of_mem _ hx)
      · intro i hi
        rw [show aliasT' = Function.update aliasT low high from rfl,
          show prob' = Function.update prob low (w low) from rfl]
        by_cases hil : i = low
        · subst hil
          refine Or.inr (Or.inr (Or.inr ?_))
          rw [Function.update_same]
          exact hlarge high (List.mem_cons_self _ _)
        · rw [Function.update_noteq hil, Function.update_noteq hil]
          rcases hinv i hi with h | h | h | h
          · rcases List.mem_cons.mp h with rfl | h'
            · exact absurd rfl hil
            · exact Or.inl (List.mem_cons_of_mem _ h')
          · rcases List.mem_cons.mp h with rfl | h'
            · exact Or.inl (List.mem_cons_self _ _)
            · exact Or.inr (Or.inl h')
          · exact Or.inr (Or.inr (Or.inl h))
          · exact Or.inr (Or.inr (Or.inr h))
  | case4 low smallRest high largeRest w prob aliasT prob' aliasT' w' hcond ih =>
      intro hsmall hlarge hinv
      rw [show aliasLoop (low :: smallRest) (high :: largeRest) w prob aliasT
          = aliasLoop smallRest (high :: largeRest)
              (Function.update w high ((w low + w high) - 1))
              (Function.update prob low (w low))
              (Function.update aliasT low high) from by
        rw [aliasLoop]
        rw [if_neg hcond]]
      apply ih
      · intro x hx
        exact hsmall x (List.mem_cons_of_mem _ hx)
      · exact hlarge
      · intro i hi
        rw [show aliasT' = Function.update aliasT low high from rfl,
          show prob' = Function.update prob low (w low) from rfl]
        by_cases hil : i = low
        · subst hil
          refine Or.inr (Or.inr (Or.inr ?_))
          rw [Function.update_same]
          exact hlarge high (List.mem_cons_self _ _)
        · rw [Function.update_noteq hil, Function.update_noteq hil]
          rcases hinv i hi with h | h | h | h
          · rcases List.mem_cons.mp h with rfl | h'
            · exact absurd rfl hil
            · exact Or.inl h'
          · exact Or.inr (Or.inl h)
          · exact Or.inr (Or.inr (Or.inl h))
          · exact Or.inr (Or.inr (Or.inr h))

/-- Core guarantee of `WeightedDistribution`: with a nonzero weight sum the
construction succeeds, every draw with `choice < 1` lands in `[0, n)`, and
(on a 64-bit machine, `n ≤ SIZE_MAX`) rows whose alias is the sentinel
carry probability exactly 1. -/
theorem alias_method_core (weights : List ℝ) (hsum : weights.sum ≠ 0) :
    ∃ dist, WeightedDistribution.init weights = .ok dist
      ∧ (∀ index choice, index < weights.length → choice < 1 →
          dist.sample index choice < weights.length)
      ∧ (weights.length ≤ sizeTSentinel →
          ∀ i, i < weights.length → dist.aliasT i = sizeTSentinel →
            dist.probabily i = 1) := by
  set n := weights.length with hndef
  set w : ℕ → ℝ := fun i => weights.getD i 0 * ((n : ℝ) / weights.sum) with hwdef
  set parts := (List.range n).partition (fun i => w i < 1) with hpartsdef
  set result := aliasLoop parts.1 parts.2 w (fun _ => 0) (fun _ => 0) with hresdef
  set leftovers := result.2.2.2 ++ result.2.2.1 with hleftdef
  set prob2 := leftovers.foldl (fun p i => Function.update p i 1) result.1 with hp2def
  set alias2 := leftovers.foldl (fun a i => Function.update a i sizeTSentinel)
    result.2.1 with ha2def
  have hiniteq : WeightedDistribution.init weights = .ok ⟨prob2, alias2⟩ := by
    unfold WeightedDistribution.init
    rw [if_neg hsum]
  have hsmall : ∀ x ∈ parts.1, x < n := by
    intro x hx
    rw [hpartsdef, List.partition_eq_filter_filter] at hx
    exact List.mem_range.mp (List.mem_of_mem_filter hx)
  have hlarge : ∀ x ∈ parts.2, x < n := by
    intro x hx
    rw [hpartsdef, List.partition_eq_filter_filter] at hx
    exact List.mem_range.mp (List.mem_of_mem_filter hx)
  have hinv0 : ∀ i, i < n → i ∈ parts.1 ∨ i ∈ parts.2
      ∨ ((fun _ : ℕ => (0 : ℕ)) i = sizeTSentinel ∧ (fun _ : ℕ => (0 : ℝ)) i = 1)
      ∨ (fun _ : ℕ => (0 : ℕ)) i < n := by
    intro i hi
    rw [hpartsdef, List.partition_eq_filter_filter]
    by_cases hp : w i < 1
    · exact Or.inl (List.mem_filter.mpr ⟨List.mem_range.mpr hi, by simpa using hp⟩)
    · exact Or.inr (Or.inl (List.mem_filter.mpr ⟨List.mem_range.mpr hi, by simpa using hp⟩))
  obtain ⟨hres1, hres2, hres3⟩ :=
    aliasLoop_invariant n parts.1 parts.2 w (fun _ => 0) (fun _ => 0)
      hsmall hlarge hinv0
  rw [← hresdef] at hres1 hres2 hres3
  have hp2 : ∀ i, prob2 i = if i ∈ leftovers then 1 else result.1 i := by
    intro i
    rw [hp2def]
    exact fold_update_const 1 leftovers result.1 i
  have ha2 : ∀ i, alias2 i = if i ∈ leftovers then sizeTSentinel else result.2.1 i := by
    intro i
    rw [ha2def]
    exact fold_update_const sizeTSentinel leftovers result.2.1 i
  refine ⟨⟨prob2, alias2⟩, hiniteq, ?_, ?_⟩
  · intro index choice hidx hch
    unfold WeightedDistribution.sample
    dsimp only
    by_cases hc : choice < prob2 index
    · rw [if_pos hc]
      exact hidx
    · rw [if_neg hc]
      by_cases hin : index ∈ leftovers
      · exact absurd (lt_of_lt_of_le hch (by rw [hp2 index, if_pos hin])) hc
      · rw [ha2 index, if_neg hin]
        rcases hres3 index hidx with h | h | h | h
        · exact absurd (List.mem_append.mpr (Or.inr h)) hin
        · exact absurd (List.mem_append.mpr (Or.inl h)) hin
        · exact absurd (lt_of_lt_of_le hch (by rw [hp2 index, if_neg hin, h.2])) hc
        · exact h
  · intro hsent i hi halias
    dsimp only at halias ⊢
    by_cases hin : i ∈ leftovers
    · rw [hp2 i, if_pos hin]
    · rw [ha2 i, if_neg hin] at halias
      rcases hres3 i hi with h | h | h | h
      · exact absurd (List.mem_append.mpr (Or.inr h)) hin
      · exact absurd (List.mem_append.mpr (Or.inl h)) hin
      · rw [hp2 i, if_neg hin]
        exact h.2
      · rw [halias] at h
        omega

/-- C9: for every weight vector with nonzero sum (machine-size length),
the alias construction succeeds; every table row whose alias is the
`SIZE_MAX` sentinel has probability exactly 1, so with `u < 1` the
alias branch is unreachable for those rows (the draw returns the row
index itself, never the sentinel); and every draw with an in-range index
and `u ∈ [0, 1)` lands in `[0, n)`. -/
theorem C9_alias_sampler_in_range (weights : List ℝ) (hsum : weights.sum ≠ 0)
    (hlen : weights.length ≤ sizeTSentinel) (index : ℕ)
    (hidx : index < weights.length) (choice : ℝ) (h0 : 0 ≤ choice)
    (h1 : choice < 1) :
    (WeightedDistribution.init weights).isOk = true
    ∧ (∀ dist, WeightedDistribution.init weights = .ok dist →
        (∀ i, i < weights.length → dist.aliasT i = sizeTSentinel →
          dist.probabily i = 1 ∧ choice < dist.probabily i
            ∧ dist.sample i choice = i)
        ∧ dist.sample index choice < weights.length) := by
  obtain ⟨dist, hinit, hsamp, hsent⟩ := alias_method_core weights hsum
  constructor
  · rw [hinit]
    rfl
  · intro d hd
    rw [hinit] at hd
    cases hd
    refine ⟨?_, hsamp index choice hidx h1⟩
    intro i hi hal
    have hp := hsent hlen i hi hal
    refine ⟨hp, by rw [hp]; exact h1, ?_⟩
    unfold WeightedDistribution.sample
    rw [if_pos (by rw [hp]; exact h1)]

/-- C9 witness: the alias tables for the two-point weight vector `[1, 1]`
build successfully. -/
theorem C9_alias_sampler_in_range_witness :
    (WeightedDistribution.init [1, 1]).isOk = true :=
  (C9_alias_sampler_in_range [1, 1] (by norm_num) (by norm_num [sizeTSentinel])
    0 (by norm_num) (1 / 2) (by norm_num) (by norm_num)).1

/-! ## C5 — stochastic truncation -/

theorem Table.lookup_append (t1 t2 : Table) (k : SpinVector) :
    Table.lookup (t1 ++ t2) k = (Table.lookup t1 k).or (Table.lookup t2 k) := by
  induction t1 with
  | nil => simp [Table.lookup]
  | cons p rest ih =>
      obtain ⟨k', a⟩ := p
      by_cases h : k' = k
      · rw [List.cons_append, Table.lookup, if_pos h, Table.lookup, if_pos h]
        rfl
      · rw [List.cons_append, Table.lookup, if_neg h, Table.lookup, if_neg h, ih]

theorem Table.lookup_insertNew_self (t : Table) (x : SpinVector × ℂ) :
    Table.lookup (Table.insertNew t x).1 x.1
      = some ((Table.lookup t x.1).getD x.2) := by
  unfold Table.insertNew
  by_cases h : (Table.lookup t x.1).isSome
  · rw [if_pos h]
    obtain ⟨a, ha⟩ := Option.isSome_iff_exists.mp h
    rw [ha]
    rfl
  · rw [if_neg h]
    rw [Table.lookup_append, Option.not_isSome_iff_eq_none.mp h]
    simp [Table.lookup]

theorem Table.lookup_insertNew_ne (t : Table) (x : SpinVector × ℂ)
    (k : SpinVector) (hk : k ≠ x.1) :
    Table.lookup (Table.insertNew t x).1 k = Table.lookup t k := by
  unfold Table.insertNew
  by_cases h : (Table.lookup t x.1).isSome
  · rw [if_pos h]
  · rw [if_neg h, Table.lookup_append]
    rw [show Table.lookup [x] k = none from by
      rw [Table.lookup, if_neg (fun he => hk he.symm)]
      rfl]
    cases Table.lookup t k with
    | none => rfl
    | some a => rfl

theorem QuantumState.maps_length_insert (ψ : QuantumState) (x : SpinVector × ℂ) :
    (ψ.insert x).maps.length = ψ.maps.length := by
  simp [QuantumState.insert]

theorem QuantumState.find_insert_self (ψ : QuantumState) (x : SpinVector × ℂ)
    (hroute : spin_to_index x.1 ψ.maps.length < ψ.maps.length) :
    (ψ.insert x).find x.1 = some ((ψ.find x.1).getD x.2) := by
  unfold QuantumState.find QuantumState.insert
  dsimp only
  rw [List.length_set]
  rw [List.getD_eq_getElem?_getD, List.getElem?_set_self hroute]
  simp only [Option.getD_some]
  exact Table.lookup_insertNew_self _ x

theorem QuantumState.find_insert_ne (ψ : QuantumState) (x : SpinVector × ℂ)
    (k : SpinVector) (hk : k ≠ x.1) :
    (ψ.insert x).find k = ψ.find k := by
  unfold QuantumState.find QuantumState.insert
  dsimp only
  rw [List.length_set]
  by_cases hsame : spin_to_index k ψ.maps.length = spin_to_index x.1 ψ.maps.length
  · rw [hsame]
    by_cases hlt : spin_to_index x.1 ψ.maps.length < ψ.maps.length
    · rw [List.getD_eq_getElem?_getD, List.getElem?_set_self hlt]
      simp only [Option.getD_some]
      exact Table.lookup_insertNew_ne _ x k hk
    · rw [List.set_eq_of_length_le (by omega)]
  · rw [List.getD_eq_getElem?_getD, List.getElem?_set_ne (fun h => hsame h.symm)]
    rw [← List.getD_eq_getElem?_getD]

theorem find_insert_fold :
    ∀ (l : List (SpinVector × ℂ)) (s : QuantumState),
      (∀ σ, spin_to_index σ s.maps.length < s.maps.length) →
      ∀ k, (l.foldl QuantumState.insert s).find k
        = (s.find k).or ((l.find? (fun x => x.1 == k)).map Prod.snd)
  | [], s, _, k => by simp
  | x :: l, s, hr, k => by
      rw [List.foldl_cons]
      have hr' : ∀ σ, spin_to_index σ (s.insert x).maps.length
          < (s.insert x).maps.length := by
        intro σ
        rw [QuantumState.maps_length_insert]
        exact hr σ
      rw [find_insert_fold l (s.insert x) hr' k]
      by_cases hk : k = x.1
      · subst hk
        rw [QuantumState.find_insert_self s x (hr x.1)]
        rw [List.find?_cons_of_pos _ (by simp)]
        cases hfind : s.find x.1 with
        | none => simp [hfind]
        | some a => simp [hfind]
      · rw [QuantumState.find_insert_ne s x k hk]
        rw [List.find?_cons_of_neg _ (by simpa using fun he => hk he.symm)]

theorem QuantumState.find_clear (ψ : QuantumState) (k : SpinVector) :
    ψ.clear.find k = none := by
  unfold QuantumState.find QuantumState.clear
  dsimp only
  rw [List.length_map, List.getD_eq_getElem?_getD, List.getElem?_map]
  cases ψ.maps[spin_to_index k ψ.maps.length]? with
  | none => rfl
  | some t => rfl

theorem QuantumState.maps_length_clear (ψ : QuantumState) :
    ψ.clear.maps.length = ψ.maps.length := by
  simp [QuantumState.clear]

/-- C5 (amended): in stochastic mode the state is replaced by the outcome
of `soft_max` draws with replacement, weighted by `|amplitude|²` through
the alias sampler — but duplicate draws of a key are **dropped** by the
hash-map `insert`, not merged: the resulting amplitude of a key is the
amplitude of its first sampled occurrence (its original amplitude), never
a multiple of it. -/
theorem C5_stochastic_resample (ψ : QuantumState) (count : ℕ)
    (draws : ℕ → ℕ × ℝ)
    (hroute : ∀ σ, spin_to_index σ ψ.maps.length < ψ.maps.length)
    (hsum : (ψ.entries.map (fun x => Complex.normSq x.2)).sum ≠ 0) :
    ∃ dist, WeightedDistribution.init
        (ψ.entries.map (fun x => Complex.normSq x.2)) = .ok dist
      ∧ ∃ s, ψ.random_resample count draws = .ok s
        ∧ ∀ k, s.find k
            = (((List.range count).map (fun i =>
                ψ.entries.getD (dist.sample (draws i).1 (draws i).2)
                  (⟨[]⟩, 0))).find? (fun x => x.1 == k)).map Prod.snd := by
  obtain ⟨dist, hinit, _, _⟩ := alias_method_core _ hsum
  refine ⟨dist, hinit, ?_⟩
  have hre : ψ.random_resample count draws
      = .ok ((List.range count).foldl
          (fun acc i => acc.insert (ψ.entries.getD
            (dist.sample (draws i).1 (draws i).2) (⟨[]⟩, 0))) ψ.clear) := by
    unfold QuantumState.random_resample
    dsimp only
    rw [hinit]
  refine ⟨_, hre, ?_⟩
  intro k
  have hfm := (List.foldl_map
    (fun i => ψ.entries.getD (dist.sample (draws i).1 (draws i).2) (⟨[]⟩, 0))
    QuantumState.insert (List.range count) ψ.clear)
  rw [show (List.range count).foldl
      (fun acc i => acc.insert (ψ.entries.getD
        (dist.sample (draws i).1 (draws i).2) (⟨[]⟩, 0))) ψ.clear
    = ((List.range count).map (fun i =>
        ψ.entries.getD (dist.sample (draws i).1 (draws i).2)
          (⟨[]⟩, 0))).foldl QuantumState.insert ψ.clear from hfm.symm]
  rw [find_insert_fold _ ψ.clear (by
    intro σ
    rw [QuantumState.maps_length_clear]
    exact hroute σ) k]
  rw [QuantumState.find_clear]
  cases ((List.range count).map (fun i =>
      ψ.entries.getD (dist.sample (draws i).1 (draws i).2)
        (⟨[]⟩, 0))).find? (fun x => x.1 == k) with
  | none => rfl
  | some a => rfl

/-- C5 witness: a one-entry stochastic state resamples successfully. -/
theorem C5_stochastic_resample_witness :
    ((⟨[[(⟨[true]⟩, 1)]], 2, 2, true⟩ : QuantumState).random_resample 0
      (fun _ => (0, 1 / 2))).isOk = true := by
  obtain ⟨dist, _, s, hs, _⟩ := C5_stochastic_resample
    ⟨[[(⟨[true]⟩, 1)]], 2, 2, true⟩ 0 (fun _ => (0, 1 / 2))
    (by
      intro σ
      rw [show ((⟨[[(⟨[true]⟩, 1)]], 2, 2, true⟩ : QuantumState)).maps.length = 1
        from rfl, spin_to_index_one]
      omega)
    (by norm_num [QuantumState.entries, Complex.normSq_one])
  rw [hs]
  rfl

/-- C5 counterexample: a single-entry stochastic state (amplitude 1),
resampled with two identical draws, ends with amplitude 1 on the
twice-sampled key — not `2·1` as "a key sampled m times carries m times
its original amplitude" demands. -/
theorem C5_counterexample :
    (((⟨[[(⟨[true]⟩, 1)]], 2, 2, true⟩ : QuantumState).random_resample 2
        (fun _ => (0, 1 / 2))).map (fun s => s.find ⟨[true]⟩)) = .ok (some 1)
    ∧ (1 : ℂ) ≠ 2 * 1 := by
  refine ⟨?_, by norm_num⟩
  set ψc : QuantumState := ⟨[[(⟨[true]⟩, 1)]], 2, 2, true⟩ with hψc
  obtain ⟨dist, hinit, hsamp, _⟩ := alias_method_core
    (ψc.entries.map (fun x => Complex.normSq x.2))
    (by norm_num [hψc, QuantumState.entries, Complex.normSq_one])
  have hre : ψc.random_resample 2 (fun _ => (0, 1 / 2))
      = .ok ((List.range 2).foldl
          (fun acc i => acc.insert (ψc.entries.getD
            (dist.sample 0 (1 / 2)) (⟨[]⟩, 0))) ψc.clear) := by
    unfold QuantumState.random_resample
    dsimp only
    rw [hinit]
  have hlen1 : (ψc.entries.map (fun x => Complex.normSq x.2)).length = 1 := rfl
  have hs0 : dist.sample 0 (1 / 2) = 0 := by
    have h3 := hsamp 0 (1 / 2) (by rw [hlen1]; omega) (by norm_num)
    rw [hlen1] at h3
    omega
  have hitem : ψc.entries.getD (dist.sample 0 (1 / 2)) (⟨[]⟩, 0)
      = (⟨[true]⟩, 1) := by
    rw [hs0]
    rfl
  rw [hre]
  simp only [Except.map]
  congr 1
  rw [show List.range 2 = [0, 1] from rfl]
  rw [List.foldl_cons, List.foldl_cons, List.foldl_nil]
  rw [hitem]
  have hroute1 : ∀ σ, spin_to_index σ (ψc.clear.maps.length)
      < ψc.clear.maps.length := by
    intro σ
    rw [show ψc.clear.maps.length = 1 from rfl, spin_to_index_one]
    omega
  have hrouteA : spin_to_index (⟨[true]⟩ : SpinVector)
      ((ψc.clear.insert (⟨[true]⟩, 1)).maps.length)
      < (ψc.clear.insert (⟨[true]⟩, 1)).maps.length := by
    rw [QuantumState.maps_length_insert]
    exact hroute1 _
  rw [show ((ψc.clear.insert (⟨[true]⟩, 1)).insert (⟨[true]⟩, 1)).find ⟨[true]⟩
      = some (((ψc.clear.insert (⟨[true]⟩, 1)).find ⟨[true]⟩).getD 1) from
    QuantumState.find_insert_self _ (⟨[true]⟩, 1) hrouteA]
  rw [show (ψc.clear.insert (⟨[true]⟩, 1)).find ⟨[true]⟩
      = some ((ψc.clear.find ⟨[true]⟩).getD 1) from
    QuantumState.find_insert_self _ (⟨[true]⟩, 1) (hroute1 _)]
  rw [QuantumState.find_clear]
  rfl
